import Mathlib

/-!
# goval-dictionary: the `convert redhat` and `convert oracle` commands

A shallow embedding of `commands/convert/convert-redhat.go` and
`commands/convert/convert-oracle.go`, and the properties of the conversion
pipeline proved on it.

## The model

* Go maps with string keys are association lists (`mapGet`, `mapSet`); the maps
  the code builds have distinct keys by construction. The order in which a
  `range` statement visits a map is chosen by the environment.
* The file system is a tree of directories and regular files addressed by
  cleaned absolute paths, together with the set of directories that cannot be
  listed. `joinPath` follows `filepath.Join`: split at the separator, drop empty
  and `.` elements, let `..` remove the previous element. Symbolic links are not
  modelled.
* `Node.glob` follows `filepath.Glob`: the whole argument is a pattern, so the
  elements of the configured directory are matched with `filepath.Match`
  (`matchName`) like the final `*`; a directory that cannot be listed yields no
  match and no error; the only error is `ErrBadPattern`.
* Every other call that can fail in the source (`SetLogger`, `os.Stat`,
  `os.MkdirAll`, the fetcher, `xml.Unmarshal`, `os.RemoveAll`, `os.Create`,
  `Encode`, `Close`, `setLastUpdatedDate`) can fail in the model, because the
  tree forces it or because the environment says so. A call that the
  environment makes fail leaves the tree as it was.
* The fetcher, the XML parser, the model converters and the JSON encoder are
  parameters of the environment.
-/

namespace Goval

/-! ## Data model (package `models`, `fetcher`) -/

/-- Modelled from the spec: the declaration of `models.Cve` is not among the sources.
The CVE identifier plus the per-CVE metadata carried along with it. -/
structure Cve where
  cveID : String
  metadata : String
  deriving DecidableEq, Repr

/-- Modelled from the spec: the declaration of `models.Advisory` is not among the
sources. The fields are the ones the conversion code reads; the element types it
never inspects (bugzilla references, CPEs, time stamps) are kept as strings. -/
structure Advisory where
  severity : String
  cves : List Cve
  bugzillas : List String
  affectedCPEList : List String
  issued : String
  updated : String
  deriving DecidableEq, Repr

/-- Modelled from the spec: the declaration of `models.Definition` is not among the
sources. The fields are the ones the conversion code reads; `debian` is the
optional source-specific block (a pointer in Go). -/
structure Definition where
  definitionID : String
  title : String
  description : String
  advisory : Advisory
  debian : Option String
  affectedPacks : List String
  references : List String
  deriving DecidableEq, Repr

/-- The fetcher's result for one document: `Target` (the version label the
document was fetched for), `URL` and `Body`. -/
structure FetchResult where
  target : String
  url : String
  body : String
  deriving DecidableEq, Repr

/-! ## Go maps -/

/-- Reading `m[x]` with the comma-ok form: the value stored under `x`, if any. -/
def mapGet {V : Type} : List (String × V) → String → Option V
  | [], _ => none
  | (k, v) :: m, x => if k = x then some v else mapGet m x

/-- The assignment `m[x] = v`: overwrite the entry of `x`, or add one. -/
def mapSet {V : Type} : List (String × V) → String → V → List (String × V)
  | [], x, v => [(x, v)]
  | (k, w) :: m, x, v => if k = x then (k, v) :: m else (k, w) :: mapSet m x v

/-- The keys of a map. -/
def mapKeys {V : Type} (m : List (String × V)) : List String := m.map Prod.fst

/-- The type of `verDefsMap`: version, then CVE identifier, then records. -/
abbrev VerDefsMap := List (String × List (String × List Definition))

/-- The list stored at `verDefsMap[ver][cveID]`; a missing key reads as the
empty (nil) slice, as in Go. -/
def corpusAt (m : VerDefsMap) (ver cveID : String) : List Definition :=
  (mapGet ((mapGet m ver).getD []) cveID).getD []

/-! ## Re-keying (convert-redhat.go 72-91, convert-oracle.go 71-90) -/

/-- The composite literal of lines 74-89 (RedHat) and 73-88 (Oracle): a copy of
`d` whose advisory lists the single CVE `cve`. -/
def rekey (d : Definition) (cve : Cve) : Definition :=
  { definitionID := d.definitionID
    title := d.title
    description := d.description
    advisory :=
      { severity := d.advisory.severity
        cves := [cve]
        bugzillas := d.advisory.bugzillas
        affectedCPEList := d.advisory.affectedCPEList
        issued := d.advisory.issued
        updated := d.advisory.updated }
    debian := d.debian
    affectedPacks := d.affectedPacks
    references := d.references }

/-- One execution of
`verDefsMap[ver][cve.CveID] = append(verDefsMap[ver][cve.CveID], models.Definition{...})`. -/
def appendRekeyed (m : VerDefsMap) (ver : String) (d : Definition) (cve : Cve) : VerDefsMap :=
  let inner := (mapGet m ver).getD []
  mapSet m ver (mapSet inner cve.cveID ((mapGet inner cve.cveID).getD [] ++ [rekey d cve]))

/-- The loop `for _, cve := range def.Advisory.Cves`. -/
def rangeCves (m : VerDefsMap) (ver : String) (d : Definition) : List Cve → VerDefsMap
  | [] => m
  | cve :: cves => rangeCves (appendRekeyed m ver d cve) ver d cves

/-- The loop `for _, def := range defs` with the CVE loop as its body. -/
def rangeDefs (m : VerDefsMap) (ver : String) : List Definition → VerDefsMap
  | [] => m
  | d :: ds => rangeDefs (rangeCves m ver d d.advisory.cves) ver ds

/-- What one `(version, records)` pair does to `verDefsMap`: the inner map of the
version is assigned a fresh empty map (convert-redhat.go 71, convert-oracle.go 70),
then every record is fanned out. -/
def addVersion (m : VerDefsMap) (ver : String) (defs : List Definition) : VerDefsMap :=
  rangeDefs (mapSet m ver []) ver defs

/-- The loop `for osVer, defs := range models.ConvertOracleToModel(&ovalroot)`,
over the entries of the converter's map in the order they are visited. -/
def rangeOsVers (m : VerDefsMap) : List (String × List Definition) → VerDefsMap
  | [] => m
  | (osVer, defs) :: rest => rangeOsVers (addVersion m osVer defs) rest

/-! ## Errors and environment -/

/-- The error returns of the two commands, one per message. -/
inductive Err where
  | setLogger
  | checkVulnDir
  | createVulnDir
  | fetchFiles
  | unmarshalXml (url : String)
  | getAllDirs
  | removeVulnData
  | createVulnFile
  | encodeVulnData
  | closeVulnFile
  | setLastUpdatedDate
  deriving DecidableEq, Repr

/-- A cleaned absolute path: its elements from the file system root. -/
abbrev Path := List String

/-- Everything a run takes from outside: configuration, the external
collaborators (fetcher, XML parser, model converters, JSON encoder), the
failures of system calls, and the order in which the runtime visits maps.
`Root` is the parsed document type `oval.Root`. -/
structure Env (Root : Type) where
  /-- The configured `vuln-dir`, as a cleaned absolute path. -/
  vulnDirBase : Path
  setLoggerFails : Bool
  /-- Whether `os.Stat` fails for a reason other than a missing entry. -/
  statFails : Bool
  fetchRedHatFiles : List String → Option (List FetchResult)
  fetchOracleFiles : Option (List FetchResult)
  unmarshal : String → Option Root
  convertRedHatToModel : Root → List Definition
  /-- The entries of the map `ConvertOracleToModel` returns, in the order the
  `range` statement visits them. -/
  convertOracleToModel : Root → List (String × List Definition)
  removeFails : Path → Bool
  mkdirFails : Path → Bool
  createFails : Path → Bool
  /-- The text `json.Encoder` with two-space indentation produces. -/
  encode : List Definition → String
  encodeFails : Path → Bool
  closeFails : Path → Bool
  /-- The order in which `range verDefsMap` visits the entries of the map. -/
  orderVers : VerDefsMap → VerDefsMap
  /-- The order in which `range defs` visits the entries of one version's map. -/
  orderCves : List (String × List Definition) → List (String × List Definition)
  setLastUpdatedDateFails : Bool

/-- The variable `supportRedHatVers`. -/
def supportRedHatVers : List String := ["5", "6", "7", "8"]

/-! ## The conversion loops (convert-redhat.go 64-92, convert-oracle.go 62-92) -/

/-- The loop `for _, r := range results` of `convertRedHat`. -/
def redhatLoop {Root : Type} (env : Env Root) :
    List FetchResult → VerDefsMap → Except Err VerDefsMap
  | [], m => .ok m
  | r :: rs, m =>
    match env.unmarshal r.body with
    | none => .error (.unmarshalXml r.url)
    | some ovalroot =>
      redhatLoop env rs (addVersion m r.target (env.convertRedHatToModel ovalroot))

/-- The loop `for _, r := range results` of `convertOracle`. -/
def oracleLoop {Root : Type} (env : Env Root) :
    List FetchResult → VerDefsMap → Except Err VerDefsMap
  | [], m => .ok m
  | r :: rs, m =>
    match env.unmarshal r.body with
    | none => .error (.unmarshalXml r.url)
    | some ovalroot =>
      oracleLoop env rs (rangeOsVers m (env.convertOracleToModel ovalroot))

/-! ## Paths (`filepath.Join`) -/

/-- Split a name at every separator. -/
def splitSlash : List Char → List (List Char)
  | [] => [[]]
  | c :: cs =>
    if c = '/' then [] :: splitSlash cs
    else
      match splitSlash cs with
      | [] => [[c]]
      | w :: ws => (c :: w) :: ws

/-- The elements of one argument of `filepath.Join`. -/
def pathElems (s : String) : List String := (splitSlash s.data).map String.mk

/-- One step of `filepath.Clean` on a rooted path: empty and `.` elements
vanish, `..` removes the previous element (and is dropped at the root). -/
def cleanStep (stack : Path) (e : String) : Path :=
  if e = "" ∨ e = "." then stack
  else if e = ".." then stack.dropLast
  else stack ++ [e]

/-- The call `filepath.Join(base, elems...)` for a cleaned absolute `base`. -/
def joinPath (base : Path) (elems : List String) : Path :=
  elems.foldl (fun stack e => (pathElems e).foldl cleanStep stack) base

/-! ## Patterns (`filepath.Match`) -/

/-- The escape character of `filepath.Match`, the backslash. -/
def escapeChar : Char := Char.ofNat 92

/-- The function `hasMeta`: whether a path element contains one of the magic
characters `*`, `?`, `[` and the backslash. -/
def hasMeta (s : String) : Bool :=
  s.data.any (fun c => decide (c = '*' ∨ c = '?' ∨ c = '[' ∨ c = escapeChar))

/-- The function `getEsc`: a possibly escaped character of a character class
and the rest of the chunk; none is `ErrBadPattern`. -/
def getEsc : List Char → Option (Char × List Char)
  | [] => none
  | c :: rest =>
    if c = '-' ∨ c = ']' then none
    else if c = escapeChar then
      match rest with
      | [] => none
      | e :: rest2 => if rest2.isEmpty then none else some (e, rest2)
    else if rest.isEmpty then none
    else some (c, rest)

/-- The range loop of a character class in `matchChunk`. `r` is the character
read from the name (none once the match has failed), `nrange` the number of
ranges parsed, `matched` whether one of them held `r`. The result is `matched`
and the chunk after the closing bracket; none is `ErrBadPattern`. The first
argument bounds the number of rounds; the length of the chunk plus one is
enough, since every round consumes a character. -/
def classLoop : Nat → Option Char → Nat → Bool → List Char → Option (Bool × List Char)
  | 0, _, _, _, _ => none
  | fuel + 1, r, nrange, matched, chunk =>
    if chunk.head? = some ']' ∧ 0 < nrange then some (matched, chunk.tail)
    else
      match getEsc chunk with
      | none => none
      | some (lo, chunk1) =>
        match chunk1 with
        | '-' :: chunk2 =>
          match getEsc chunk2 with
          | none => none
          | some (hi, chunk3) =>
            classLoop fuel r (nrange + 1)
              (matched || (match r with
                | some x => decide (lo ≤ x ∧ x ≤ hi)
                | none => false)) chunk3
        | _ =>
          classLoop fuel r (nrange + 1)
            (matched || (match r with
              | some x => decide (lo = x)
              | none => false)) chunk1

/-- Compare one literal character of a chunk with the next character of the
name; the name is none once the match has failed. -/
def matchLiteral (c : Char) : Option (List Char) → Option (List Char)
  | some (x :: s) => if c = x then some s else none
  | _ => none

/-- The function `matchChunk`: whether the chunk matches the beginning of the
name. The name is none once the match has failed; the chunk is then still
parsed to the end. The outer none is `ErrBadPattern`, the inner value is the
rest of the name after the match, or none when there is no match. The first
argument bounds the number of rounds; the length of the chunk plus one is
enough. -/
def matchChunk : Nat → List Char → Option (List Char) → Option (Option (List Char))
  | 0, _, _ => none
  | fuel + 1, chunk, st =>
    match chunk with
    | [] => some st
    | c :: rest =>
      let st1 : Option (List Char) :=
        match st with
        | some [] => none
        | other => other
      if c = '[' then
        let r : Option Char :=
          match st1 with
          | some (x :: _) => some x
          | _ => none
        let st2 : Option (List Char) :=
          match st1 with
          | some (_ :: s) => some s
          | _ => none
        let negated : Bool := decide (rest.head? = some '^')
        let body := if negated then rest.tail else rest
        match classLoop (body.length + 1) r 0 false body with
        | none => none
        | some (matched, chunk1) =>
          matchChunk fuel chunk1 (if matched = negated then none else st2)
      else if c = '?' then
        matchChunk fuel rest
          (match st1 with
            | some (x :: s) => if x = '/' then none else some s
            | _ => none)
      else if c = escapeChar then
        match rest with
        | [] => none
        | e :: rest2 => matchChunk fuel rest2 (matchLiteral e st1)
      else matchChunk fuel rest (matchLiteral c st1)

/-- The leading stars of `scanChunk`: whether there is one, and the pattern
after them. -/
def dropStars : List Char → Bool × List Char
  | [] => (false, [])
  | c :: rest => if c = '*' then (true, (dropStars rest).2) else (false, c :: rest)

/-- The scan of `scanChunk`: the chunk up to the next star outside a character
class, and the rest of the pattern. `skip` says that the character is escaped. -/
def scanBody : Bool → Bool → List Char → List Char × List Char
  | _, _, [] => ([], [])
  | inrange, skip, c :: cs =>
    if skip then ((c :: (scanBody inrange false cs).1), (scanBody inrange false cs).2)
    else if c = escapeChar then
      ((c :: (scanBody inrange (!cs.isEmpty) cs).1), (scanBody inrange (!cs.isEmpty) cs).2)
    else if c = '[' then ((c :: (scanBody true false cs).1), (scanBody true false cs).2)
    else if c = ']' then ((c :: (scanBody false false cs).1), (scanBody false false cs).2)
    else if c = '*' ∧ inrange = false then ([], c :: cs)
    else ((c :: (scanBody inrange false cs).1), (scanBody inrange false cs).2)

/-- The loop of `Match` that tries the chunk after skipping more and more of the
name, never a separator. The outer none is `ErrBadPattern`; the inner value is
the rest of the name after a match. `last` says that no pattern is left after
the chunk, in which case the match has to use up the name. -/
def starLoop (chunk : List Char) (last : Bool) : List Char → Option (Option (List Char))
  | [] => some none
  | c :: cs =>
    if c = '/' then some none
    else
      match matchChunk (chunk.length + 1) chunk (some cs) with
      | none => none
      | some (some t) => if last ∧ ¬ t.isEmpty then starLoop chunk last cs else some (some t)
      | some none => starLoop chunk last cs

/-- The final loop of `Match`: whether the rest of the pattern is well formed. -/
def validRest : Nat → List Char → Bool
  | 0, _ => false
  | fuel + 1, pattern =>
    if pattern.isEmpty then true
    else
      let chunk := (scanBody false false (dropStars pattern).2).1
      let rest := (scanBody false false (dropStars pattern).2).2
      (matchChunk (chunk.length + 1) chunk (some [])).isSome && validRest fuel rest

/-- The main loop of `Match`; none is `ErrBadPattern`. The first argument bounds
the number of rounds; the length of the pattern plus one is enough, since every
round consumes a character of the pattern. -/
def matchLoop : Nat → List Char → List Char → Option Bool
  | 0, _, _ => none
  | fuel + 1, pattern, name =>
    if pattern.isEmpty then some name.isEmpty
    else
      let star := (dropStars pattern).1
      let chunk := (scanBody false false (dropStars pattern).2).1
      let rest := (scanBody false false (dropStars pattern).2).2
      if star ∧ chunk.isEmpty then some (decide ('/' ∉ name))
      else
        match matchChunk (chunk.length + 1) chunk (some name) with
        | none => none
        | some found =>
          match (match found with
              | some t => if t.isEmpty ∨ ¬ rest.isEmpty then some t else none
              | none => none) with
          | some t => matchLoop fuel rest t
          | none =>
            if star then
              match starLoop chunk rest.isEmpty name with
              | none => none
              | some (some t) => matchLoop fuel rest t
              | some none => if validRest (rest.length + 1) rest then some false else none
            else if validRest (rest.length + 1) rest then some false else none

/-- The call `filepath.Match(pattern, name)`; none is `ErrBadPattern`. The model
steps through pattern and name character by character where the code steps
through bytes; the two agree on ASCII text. -/
def matchName (pattern name : String) : Option Bool :=
  matchLoop (pattern.length + 1) pattern.data name.data

/-! ## The file system -/

/-- A file system object: a regular file with its content, or a directory with
its entries. The first entry of a name is the one that counts. -/
inductive Node where
  | file (content : String)
  | dir (kids : List (String × Node))
  deriving Repr

/-- Remove every entry named `x` from a directory listing. -/
def mapDel {V : Type} : List (String × V) → String → List (String × V)
  | [], _ => []
  | (k, v) :: m, x => if k = x then mapDel m x else (k, v) :: mapDel m x

/-- The object at a path, if there is one. -/
def Node.get : Node → Path → Option Node
  | n, [] => some n
  | .file _, _ :: _ => none
  | .dir ks, x :: p =>
    match mapGet ks x with
    | none => none
    | some k => k.get p

/-- The content of the regular file at a path. -/
def Node.fileAt (n : Node) (p : Path) : Option String :=
  match n.get p with
  | some (.file c) => some c
  | _ => none

/-- Whether there is a directory at a path. -/
def Node.isDirAt (n : Node) (p : Path) : Bool :=
  match n.get p with
  | some (.dir _) => true
  | _ => false

/-- Whether anything exists at a path. -/
def Node.existsAt (n : Node) (p : Path) : Bool := (n.get p).isSome

/-- The answers of `os.Stat` that the commands tell apart. -/
inductive StatResult where
  | isDir
  | isFile
  | notExist
  | notDirOnPath
  deriving DecidableEq, Repr

/-- The call `os.Stat(p)`: a missing element is `ENOENT`, a regular file in the
middle of the path is `ENOTDIR`. -/
def Node.stat : Node → Path → StatResult
  | .file _, [] => .isFile
  | .dir _, [] => .isDir
  | .file _, _ :: _ => .notDirOnPath
  | .dir ks, x :: p =>
    match mapGet ks x with
    | none => .notExist
    | some k => k.stat p

/-- The call `os.MkdirAll(p)`: every missing directory on the path is created; a
regular file on the path or at its end makes it fail. -/
def Node.mkdirAll : Node → Path → Option Node
  | .file _, _ => none
  | .dir ks, [] => some (.dir ks)
  | .dir ks, x :: p =>
    match ((mapGet ks x).getD (.dir [])).mkdirAll p with
    | none => none
    | some k => some (.dir (mapSet ks x k))

/-- The call `os.RemoveAll(p)`: the entry at `p` goes with everything below it;
a path that does not exist is left alone. -/
def Node.removeAll : Node → Path → Node
  | n, [] => n
  | .file c, _ :: _ => .file c
  | .dir ks, [x] => .dir (mapDel ks x)
  | .dir ks, x :: y :: p =>
    match mapGet ks x with
    | none => .dir ks
    | some k => .dir (mapSet ks x (k.removeAll (y :: p)))

/-- Put a regular file with content `c` at `p` (what `os.Create` followed by
writes leaves): the parent must be an existing directory and `p` must not be a
directory. -/
def Node.putFile : Node → Path → String → Option Node
  | _, [], _ => none
  | .file _, _ :: _, _ => none
  | .dir ks, [x], c =>
    match mapGet ks x with
    | some (.dir _) => none
    | _ => some (.dir (mapSet ks x (.file c)))
  | .dir ks, x :: y :: p, c =>
    match mapGet ks x with
    | none => none
    | some k =>
      match k.putFile (y :: p) c with
      | none => none
      | some k2 => some (.dir (mapSet ks x k2))

/-- Whether one of the elements of a path has a magic character. -/
def hasMetaPath (p : Path) : Bool := p.any hasMeta

/-- The function `glob(dir, pattern, matches)` of package `filepath`: the entries
of the directory `dir` whose names match `pattern`, each joined to `dir`. There
is no match, and no error, when `dir` is not a directory or cannot be listed. -/
def Node.globDir (fs : Node) (unlistable : List Path) (dir : Path) (pattern : String) :
    List Path :=
  if dir ∈ unlistable then []
  else
    match fs.get dir with
    | some (.dir ks) =>
      ((mapKeys ks).filter (fun n => decide (matchName pattern n = some true))).map
        (fun n => dir ++ [n])
    | _ => []

/-- The recursion of `filepath.Glob` on a well-formed pattern, given by its
elements in reverse order (last element first). A pattern without magic
characters matches itself when it exists. Otherwise the pattern is split into
its directory and its last element: a directory without magic characters is
listed as it stands, a directory with magic characters is globbed first and
every match is listed. -/
def Node.globRev (fs : Node) (unlistable : List Path) : List String → List Path
  | [] => [[]]
  | elem :: rdir =>
    if hasMetaPath (elem :: rdir) = false then
      if fs.existsAt (rdir.reverse ++ [elem]) then [rdir.reverse ++ [elem]] else []
    else if hasMetaPath rdir = false then fs.globDir unlistable rdir.reverse elem
    else (fs.globRev unlistable rdir).flatMap (fun d => fs.globDir unlistable d elem)

/-- The call `filepath.Glob(pattern)` for a pattern given by its elements; none
is `ErrBadPattern`, the only error of the function, returned when an element is
not a well-formed pattern. -/
def Node.glob (fs : Node) (unlistable : List Path) (pattern : Path) : Option (List Path) :=
  if pattern.any (fun c => (matchName c "").isNone) then none
  else some (fs.globRev unlistable pattern.reverse)

/-- Whether the glob of a pattern, given by its elements in reverse order,
returns the path that is spelled like the pattern, when that path exists: from
the first element with a magic character on, every element has to match itself
and every directory on the way has to be listable. -/
def globReaches (unlistable : List Path) : List String → Bool
  | [] => true
  | elem :: rdir =>
    if hasMetaPath (elem :: rdir) = false then true
    else
      (decide (rdir.reverse ∉ unlistable) && decide (matchName elem elem = some true)) &&
        (if hasMetaPath rdir = false then true else globReaches unlistable rdir)

/-- Whether `filepath.Glob(filepath.Join(dir, "*"))` lists the entries of the
directory `dir` itself: `dir` can be listed and the glob of `dir` returns `dir`. -/
def globListsRoot (unlistable : List Path) (dir : Path) : Bool :=
  decide (dir ∉ unlistable) &&
    (if hasMetaPath dir.reverse = false then true else globReaches unlistable dir.reverse)

/-- The names of the entries of the directory at a path. -/
def Node.kidNames (fs : Node) (dir : Path) : List String :=
  match fs.get dir with
  | some (.dir ks) => mapKeys ks
  | _ => []

/-- Whether the first path is an initial segment of the second. -/
def initOf : Path → Path → Bool
  | [], _ => true
  | _ :: _, [] => false
  | a :: p, b :: q => decide (a = b) && initOf p q

/-- The state a run acts on. -/
structure World where
  fs : Node
  /-- The directories that cannot be listed (no read permission): opening or
  reading them fails, which `filepath.Glob` ignores. -/
  unlistable : List Path
  /-- Modelled from the spec: `setLastUpdatedDate` is not among the sources. The
  ledger is represented by the keys the function has been invoked with, oldest
  first. -/
  ledgerCalls : List String
  deriving Repr

/-! ## The directory check (lines 45-55 / 43-53) -/

/-- The `os.Stat` block at the top of both commands. -/
def checkVulnDir {Root : Type} (env : Env Root) (vulnDir : Path) (fs : Node) :
    Node × Option Err :=
  if env.statFails then (fs, some .checkVulnDir)
  else
    match fs.stat vulnDir with
    | .notDirOnPath => (fs, some .checkVulnDir)
    | .notExist =>
      if env.mkdirFails vulnDir then (fs, some .createVulnDir)
      else
        match fs.mkdirAll vulnDir with
        | none => (fs, some .createVulnDir)
        | some fs1 => (fs1, none)
    | .isFile => (fs, some .checkVulnDir)
    | .isDir => (fs, none)

/-! ## The Directory Store (lines 94-128 of both files) -/

/-- The loop `for _, d := range dirs` around `os.RemoveAll`. -/
def removeEach {Root : Type} (env : Env Root) : List Path → Node → Node × Option Err
  | [], fs => (fs, none)
  | d :: ds, fs =>
    if env.removeFails d then (fs, some .removeVulnData)
    else removeEach env ds (fs.removeAll d)

/-- Lines 95-103: glob the pattern `filepath.Join(vulnDir, "*")` and remove each
match. -/
def deleteOld {Root : Type} (env : Env Root) (unlistable : List Path) (vulnDir : Path)
    (fs : Node) : Node × Option Err :=
  match fs.glob unlistable (joinPath vulnDir ["*"]) with
  | none => (fs, some .getAllDirs)
  | some dirs => removeEach env dirs fs

/-- Lines 112-126: create, encode and close the file of one CVE. -/
def writeCve {Root : Type} (env : Env Root) (vulnDir : Path) (ver cveID : String)
    (defs : List Definition) (fs : Node) : Node × Option Err :=
  let file := joinPath vulnDir [ver, cveID ++ ".json"]
  if env.createFails file then (fs, some .createVulnFile)
  else
    match fs.putFile file "" with
    | none => (fs, some .createVulnFile)
    | some fs1 =>
      if env.encodeFails file then (fs1, some .encodeVulnData)
      else
        match fs1.putFile file (env.encode defs) with
        | none => (fs1, some .encodeVulnData)
        | some fs2 =>
          if env.closeFails file then (fs2, some .closeVulnFile)
          else (fs2, none)

/-- The loop `for cveID, def := range defs` (line 111). -/
def rangeCveFiles {Root : Type} (env : Env Root) (vulnDir : Path) (ver : String) :
    List (String × List Definition) → Node → Node × Option Err
  | [], fs => (fs, none)
  | (cveID, defs) :: rest, fs =>
    match writeCve env vulnDir ver cveID defs fs with
    | (fs1, some e) => (fs1, some e)
    | (fs1, none) => rangeCveFiles env vulnDir ver rest fs1

/-- The loop `for ver, defs := range verDefsMap` (line 106). -/
def rangeVerDirs {Root : Type} (env : Env Root) (vulnDir : Path) :
    VerDefsMap → Node → Node × Option Err
  | [], fs => (fs, none)
  | (ver, defs) :: rest, fs =>
    let dir := joinPath vulnDir [ver]
    if env.mkdirFails dir then (fs, some .createVulnDir)
    else
      match fs.mkdirAll dir with
      | none => (fs, some .createVulnDir)
      | some fs1 =>
        match rangeCveFiles env vulnDir ver (env.orderCves defs) fs1 with
        | (fs2, some e) => (fs2, some e)
        | (fs2, none) => rangeVerDirs env vulnDir rest fs2

/-- Lines 94-128: remove what the glob matches, then write the corpus. -/
def store {Root : Type} (env : Env Root) (unlistable : List Path) (vulnDir : Path)
    (verDefsMap : VerDefsMap) (fs : Node) : Node × Option Err :=
  match deleteOld env unlistable vulnDir fs with
  | (fs1, some e) => (fs1, some e)
  | (fs1, none) => rangeVerDirs env vulnDir (env.orderVers verDefsMap) fs1

/-- Lines 94-136: the Directory Store, then `setLastUpdatedDate(key)`. -/
def storeAndStamp {Root : Type} (env : Env Root) (vulnDir : Path) (key : String)
    (verDefsMap : VerDefsMap) (fs : Node) (unlistable : List Path)
    (ledgerCalls : List String) : World × Option Err :=
  match store env unlistable vulnDir verDefsMap fs with
  | (fs1, some e) => (⟨fs1, unlistable, ledgerCalls⟩, some e)
  | (fs1, none) =>
    if env.setLastUpdatedDateFails then
      (⟨fs1, unlistable, ledgerCalls ++ [key]⟩, some .setLastUpdatedDate)
    else (⟨fs1, unlistable, ledgerCalls ++ [key]⟩, none)

/-! ## The two commands -/

/-- The command `convertRedHat`; the second component is the returned error. -/
def convertRedHat {Root : Type} (env : Env Root) (w : World) : World × Option Err :=
  if env.setLoggerFails then (w, some .setLogger)
  else
    let vulnDir := joinPath env.vulnDirBase ["redhat"]
    match checkVulnDir env vulnDir w.fs with
    | (fs0, some e) => (⟨fs0, w.unlistable, w.ledgerCalls⟩, some e)
    | (fs0, none) =>
      match env.fetchRedHatFiles supportRedHatVers with
      | none => (⟨fs0, w.unlistable, w.ledgerCalls⟩, some .fetchFiles)
      | some results =>
        match redhatLoop env results [] with
        | .error e => (⟨fs0, w.unlistable, w.ledgerCalls⟩, some e)
        | .ok verDefsMap =>
          storeAndStamp env vulnDir "goval-dictionary/redhat" verDefsMap fs0 w.unlistable
            w.ledgerCalls

/-- The command `convertOracle`; the second component is the returned error. -/
def convertOracle {Root : Type} (env : Env Root) (w : World) : World × Option Err :=
  if env.setLoggerFails then (w, some .setLogger)
  else
    let vulnDir := joinPath env.vulnDirBase ["oracle"]
    match checkVulnDir env vulnDir w.fs with
    | (fs0, some e) => (⟨fs0, w.unlistable, w.ledgerCalls⟩, some e)
    | (fs0, none) =>
      match env.fetchOracleFiles with
      | none => (⟨fs0, w.unlistable, w.ledgerCalls⟩, some .fetchFiles)
      | some results =>
        match oracleLoop env results [] with
        | .error e => (⟨fs0, w.unlistable, w.ledgerCalls⟩, some e)
        | .ok verDefsMap =>
          storeAndStamp env vulnDir "goval-dictionary/oracle" verDefsMap fs0 w.unlistable
            w.ledgerCalls

/-! ## Both commands at once -/

/-- The two feeds. -/
inductive Source where
  | redhat
  | oracle
  deriving DecidableEq, Repr

/-- The pairs of a version key and a record sequence that one parsed document
contributes: `(r.Target, ConvertRedHatToModel(root))` for RedHat, the entries of
`ConvertOracleToModel(root)` for Oracle. -/
def yieldOf {Root : Type} (src : Source) (env : Env Root) (r : FetchResult) (root : Root) :
    List (String × List Definition) :=
  match src with
  | .redhat => [(r.target, env.convertRedHatToModel root)]
  | .oracle => env.convertOracleToModel root

/-- The conversion loop of the command of a feed. -/
def convertLoop {Root : Type} (src : Source) (env : Env Root) :
    List FetchResult → VerDefsMap → Except Err VerDefsMap :=
  match src with
  | .redhat => redhatLoop env
  | .oracle => oracleLoop env

/-- The command of a feed. -/
def convert {Root : Type} (src : Source) (env : Env Root) (w : World) : World × Option Err :=
  match src with
  | .redhat => convertRedHat env w
  | .oracle => convertOracle env w

/-- The documents the fetcher hands to the command of a feed. -/
def fetched {Root : Type} (src : Source) (env : Env Root) : Option (List FetchResult) :=
  match src with
  | .redhat => env.fetchRedHatFiles supportRedHatVers
  | .oracle => env.fetchOracleFiles

/-- The source root of a feed: `filepath.Join(vuln-dir, "redhat")` or
`filepath.Join(vuln-dir, "oracle")`. -/
def vulnDirOf {Root : Type} (src : Source) (env : Env Root) : Path :=
  match src with
  | .redhat => joinPath env.vulnDirBase ["redhat"]
  | .oracle => joinPath env.vulnDirBase ["oracle"]

/-- The key of a feed in the metadata ledger. -/
def ledgerKey : Source → String
  | .redhat => "goval-dictionary/redhat"
  | .oracle => "goval-dictionary/oracle"

/-! ## Reference definitions for the re-keyed lists -/

/-- Walk the CVE references of one record in order and emit a re-keyed copy for
each one whose identifier is `c`. -/
def walkCves (c : String) (d : Definition) : List Cve → List Definition
  | [] => []
  | cve :: cves =>
    if cve.cveID = c then rekey d cve :: walkCves c d cves else walkCves c d cves

/-- Walk the records in input order, and within each record its CVE references
in order, emitting one re-keyed copy for each reference whose identifier is `c`. -/
def referenceList (c : String) : List Definition → List Definition
  | [] => []
  | d :: ds => walkCves c d d.advisory.cves ++ referenceList c ds

/-- The number of records stored under a version, summed over its CVE keys. -/
def storedUnder (m : VerDefsMap) (ver : String) : Nat :=
  (((mapGet m ver).getD []).map (fun e => e.2.length)).sum

/-- The sum of the CVE-list lengths of a record sequence. -/
def cveCount (defs : List Definition) : Nat :=
  (defs.map (fun d => d.advisory.cves.length)).sum

/-! ## The accumulation seen from inside one version -/

/-- What `appendRekeyed` does to the inner map of its version. -/
def innerAppend (inner : List (String × List Definition)) (d : Definition) (cve : Cve) :
    List (String × List Definition) :=
  mapSet inner cve.cveID ((mapGet inner cve.cveID).getD [] ++ [rekey d cve])

/-- What `rangeCves` does to the inner map of its version. -/
def innerCves (inner : List (String × List Definition)) (d : Definition) :
    List Cve → List (String × List Definition)
  | [] => inner
  | cve :: cves => innerCves (innerAppend inner d cve) d cves

/-- What `rangeDefs` does to the inner map of its version. -/
def innerDefs (inner : List (String × List Definition)) :
    List Definition → List (String × List Definition)
  | [] => inner
  | d :: ds => innerDefs (innerCves inner d d.advisory.cves) ds

/-- The inner map a record sequence leaves under its version key. -/
def rekeyAll (defs : List Definition) : List (String × List Definition) :=
  innerDefs [] defs

/-- The record sequence of the last pair with version key `v`. -/
def lastYield (v : String) : List (String × List Definition) → Option (List Definition)
  | [] => none
  | (k, defs) :: rest =>
    match lastYield v rest with
    | some later => some later
    | none => if k = v then some defs else none

/-- The pairs all documents of a run contribute, in the order the conversion
loop meets them. -/
def allYields {Root : Type} (src : Source) (env : Env Root) :
    List FetchResult → List (String × List Definition)
  | [] => []
  | r :: rs =>
    match env.unmarshal r.body with
    | none => []
    | some root => yieldOf src env r root ++ allYields src env rs

/-! ## Plain names -/

/-- The name contains no path separator. -/
def NoSlash (s : String) : Prop := '/' ∉ s.data

instance (s : String) : Decidable (NoSlash s) := by
  unfold NoSlash
  infer_instance

/-- A plain path-component name: no separator, and not one of the names that
`filepath.Clean` removes or interprets. -/
def PlainName (s : String) : Prop := NoSlash s ∧ s ≠ "" ∧ s ≠ "." ∧ s ≠ ".."

instance (s : String) : Decidable (PlainName s) := by
  unfold PlainName
  infer_instance

/-- No system call of the wipe-and-write phase fails: the glob returns its
matches, and the environment makes none of the other calls fail, that is the
removal of every match, the creation of every version directory, and the create,
encode and close of every file. -/
def StoreCallsSucceed {Root : Type} (env : Env Root) (unlistable : List Path) (vulnDir : Path)
    (m : VerDefsMap) (fs : Node) : Prop :=
  (∃ dirs, fs.glob unlistable (joinPath vulnDir ["*"]) = some dirs ∧
    ∀ d ∈ dirs, env.removeFails d = false) ∧
  ∀ e ∈ env.orderVers m,
    env.mkdirFails (joinPath vulnDir [e.1]) = false ∧
    ∀ f ∈ env.orderCves e.2,
      env.createFails (joinPath vulnDir [e.1, f.1 ++ ".json"]) = false ∧
      env.encodeFails (joinPath vulnDir [e.1, f.1 ++ ".json"]) = false ∧
      env.closeFails (joinPath vulnDir [e.1, f.1 ++ ".json"]) = false

/-- Every field of `x` other than `advisory.cves` equals the field of `d`. -/
def SameExceptCves (x d : Definition) : Prop :=
  x.definitionID = d.definitionID ∧ x.title = d.title ∧ x.description = d.description ∧
  x.advisory.severity = d.advisory.severity ∧ x.advisory.bugzillas = d.advisory.bugzillas ∧
  x.advisory.affectedCPEList = d.advisory.affectedCPEList ∧
  x.advisory.issued = d.advisory.issued ∧ x.advisory.updated = d.advisory.updated ∧
  x.debian = d.debian ∧ x.affectedPacks = d.affectedPacks ∧ x.references = d.references

/-! ## Sample inputs -/

/-- A record with the given identifier and CVE identifiers. -/
def sampleDef (id : String) (cves : List String) : Definition :=
  { definitionID := id
    title := "title"
    description := "text"
    advisory :=
      { severity := "Important"
        cves := cves.map (fun c => ⟨c, "cvss"⟩)
        bugzillas := ["bz"]
        affectedCPEList := ["cpe"]
        issued := "2020-01-01"
        updated := "2020-01-02" }
    debian := none
    affectedPacks := ["pkgA"]
    references := ["ref"] }

/-- Three sample documents, all fetched for version 7: `doc-a` and `doc-b` parse,
`broken` does not. -/
def sampleDocs : List FetchResult :=
  [⟨"7", "url-a", "doc-a"⟩, ⟨"7", "url-b", "doc-b"⟩, ⟨"7", "url-c", "broken"⟩]

/-- A sample environment in which no system call fails and maps are visited in
the order of their association lists. A parsed document is its body. -/
def sampleEnv : Env String :=
  { vulnDirBase := ["vuln"]
    setLoggerFails := false
    statFails := false
    fetchRedHatFiles := fun _ => some (sampleDocs.take 1)
    fetchOracleFiles := some (sampleDocs.take 1)
    unmarshal := fun body => if body = "broken" then none else some body
    convertRedHatToModel := fun root =>
      if root = "doc-a" then
        [sampleDef "RHSA-1" ["CVE-2020-1", "CVE-2020-2"], sampleDef "RHSA-0" []]
      else [sampleDef "RHSA-2" ["CVE-2020-1"]]
    convertOracleToModel := fun root =>
      if root = "doc-a" then
        [("7", [sampleDef "ELSA-1" ["CVE-2020-1", "CVE-2020-2"], sampleDef "ELSA-0" []]),
         ("8", [sampleDef "ELSA-1" ["CVE-2020-1"]])]
      else [("7", [sampleDef "ELSA-2" ["CVE-2020-1"]])]
    removeFails := fun _ => false
    mkdirFails := fun _ => false
    createFails := fun _ => false
    encode := fun defs =>
      String.join (defs.map (fun d =>
        d.definitionID ++ " " ++ String.join (d.advisory.cves.map (fun c => c.cveID)) ++ ";"))
    encodeFails := fun _ => false
    closeFails := fun _ => false
    orderVers := fun m => m
    orderCves := fun m => m
    setLastUpdatedDateFails := false }

/-- A corpus with one version and one CVE. -/
def sampleCorpus : VerDefsMap :=
  [("6", [("CVE-2020-1", [rekey (sampleDef "RHSA-1" ["CVE-2020-1"]) ⟨"CVE-2020-1", "cvss"⟩])])]

/-- A file system in which the RedHat source root holds a file for another CVE
under version 6 and a directory for version 5. -/
def sampleOldFs : Node :=
  .dir [("vuln", .dir [("redhat", .dir
    [("6", .dir [("CVE-0000-0000.json", .file "old")]), ("5", .dir [])])])]

/-- The same content below a source root whose configured directory, `v[u]ln`,
holds a character class. -/
def samplePatternFs : Node :=
  .dir [("v[u]ln", .dir [("redhat", .dir
    [("6", .dir [("CVE-0000-0000.json", .file "old")]), ("5", .dir [])])])]

/-- The sample environment with a fetcher that returns all three sample
documents, the last of which does not parse. -/
def brokenEnv : Env String :=
  { sampleEnv with fetchRedHatFiles := fun _ => some sampleDocs }

/-- The sample environment with a RedHat converter whose record lists two CVE
identifiers that `filepath.Join` maps to the same file name. -/
def collideEnv : Env String :=
  { sampleEnv with
    convertRedHatToModel := fun _ => [sampleDef "RHSA-1" ["CVE-2020-1", "./CVE-2020-1"]] }

/-- The same environment, except that the CVE map of a version is visited in the
opposite order. -/
def collideEnvRev : Env String :=
  { collideEnv with orderCves := List.reverse }

/-- The sample environment, except that both maps are visited in the opposite
order. -/
def sampleEnvRev : Env String :=
  { sampleEnv with orderVers := List.reverse, orderCves := List.reverse }

/-- The corpus of a conversion loop that succeeded. -/
def corpusOf (x : Except Err VerDefsMap) : VerDefsMap :=
  match x with
  | .ok corpus => corpus
  | .error _ => []

/-! ## Lemmas on Go maps -/

theorem mapGet_mapSet {V : Type} (m : List (String × V)) (k x : String) (v : V) :
    mapGet (mapSet m k v) x = if k = x then some v else mapGet m x := by
  induction m with
  | nil => simp [mapSet, mapGet]
  | cons e m ih =>
    obtain ⟨k1, w⟩ := e
    by_cases h1 : k1 = k
    · subst h1
      by_cases h2 : k1 = x <;> simp [mapSet, mapGet, h2]
    · by_cases h2 : k = x
      · subst h2
        simp [mapSet, mapGet, h1, ih]
      · by_cases h3 : k1 = x
        · subst h3
          simp [mapSet, mapGet, h1, h2]
        · simp [mapSet, mapGet, h1, h2, h3, ih]

theorem mapSet_mapSet {V : Type} (m : List (String × V)) (k : String) (a b : V) :
    mapSet (mapSet m k a) k b = mapSet m k b := by
  induction m with
  | nil => simp [mapSet]
  | cons e m ih =>
    obtain ⟨k1, w⟩ := e
    by_cases h1 : k1 = k <;> simp [mapSet, h1, ih]

theorem mapKeys_mapSet {V : Type} (m : List (String × V)) (k : String) (v : V) :
    mapKeys (mapSet m k v) = if k ∈ mapKeys m then mapKeys m else mapKeys m ++ [k] := by
  induction m with
  | nil => simp [mapSet, mapKeys]
  | cons e m ih =>
    obtain ⟨k1, w⟩ := e
    by_cases h1 : k1 = k
    · subst h1
      simp [mapSet, mapKeys]
    · have h2 : ¬ k = k1 := fun h => h1 h.symm
      simp only [mapKeys] at ih
      by_cases h3 : k ∈ List.map Prod.fst m
      · simp [mapSet, mapKeys, h1, h2, h3, ih]
      · simp [mapSet, mapKeys, h1, h2, h3, ih]

theorem mem_mapKeys_iff {V : Type} (m : List (String × V)) (k : String) :
    k ∈ mapKeys m ↔ ∃ v, mapGet m k = some v := by
  induction m with
  | nil => simp [mapKeys, mapGet]
  | cons e m ih =>
    obtain ⟨k1, w⟩ := e
    by_cases h1 : k1 = k
    · subst h1
      simp [mapKeys, mapGet]
    · have h2 : ¬ k = k1 := fun h => h1 h.symm
      simp only [mapKeys] at ih
      simp [mapKeys, mapGet, h1, h2, ih]

theorem mapKeys_nodup_mapSet {V : Type} (m : List (String × V)) (k : String) (v : V)
    (h : (mapKeys m).Nodup) : (mapKeys (mapSet m k v)).Nodup := by
  rw [mapKeys_mapSet]
  by_cases hk : k ∈ mapKeys m
  · simpa [hk] using h
  · simp only [hk, if_false]
    exact List.Nodup.append h (List.nodup_singleton k) (by simpa using hk)

theorem mapGet_of_mem {V : Type} (m : List (String × V)) (h : (mapKeys m).Nodup)
    (k : String) (v : V) (hm : (k, v) ∈ m) : mapGet m k = some v := by
  induction m with
  | nil => simp at hm
  | cons e m ih =>
    obtain ⟨k1, w⟩ := e
    simp only [mapKeys, List.map_cons, List.nodup_cons] at h
    rcases List.mem_cons.mp hm with heq | hin
    · cases heq
      simp [mapGet]
    · have hne : k1 ≠ k := by
        intro hk
        subst hk
        exact h.1 (List.mem_map_of_mem Prod.fst hin)
      simp [mapGet, hne, ih h.2 hin]

theorem mem_of_mapGet {V : Type} (m : List (String × V)) (k : String) (v : V)
    (h : mapGet m k = some v) : (k, v) ∈ m := by
  induction m with
  | nil => simp [mapGet] at h
  | cons e m ih =>
    obtain ⟨k1, w⟩ := e
    by_cases h1 : k1 = k
    · subst h1
      simp [mapGet] at h
      simp [h]
    · simp [mapGet, h1] at h
      exact List.mem_cons_of_mem _ (ih h)

/-! ## Lemmas on the accumulation -/

theorem appendRekeyed_mapSet (m : VerDefsMap) (ver : String)
    (inner : List (String × List Definition)) (d : Definition) (cve : Cve) :
    appendRekeyed (mapSet m ver inner) ver d cve = mapSet m ver (innerAppend inner d cve) := by
  simp [appendRekeyed, innerAppend, mapGet_mapSet, mapSet_mapSet]

theorem rangeCves_mapSet (m : VerDefsMap) (ver : String) (d : Definition) (cves : List Cve) :
    ∀ inner, rangeCves (mapSet m ver inner) ver d cves = mapSet m ver (innerCves inner d cves) := by
  induction cves with
  | nil => intro inner; rfl
  | cons c cs ih =>
    intro inner
    simp only [rangeCves, innerCves, appendRekeyed_mapSet, ih]

theorem rangeDefs_mapSet (m : VerDefsMap) (ver : String) (defs : List Definition) :
    ∀ inner, rangeDefs (mapSet m ver inner) ver defs = mapSet m ver (innerDefs inner defs) := by
  induction defs with
  | nil => intro inner; rfl
  | cons d ds ih =>
    intro inner
    simp only [rangeDefs, innerDefs, rangeCves_mapSet, ih]

theorem addVersion_eq (m : VerDefsMap) (ver : String) (defs : List Definition) :
    addVersion m ver defs = mapSet m ver (rekeyAll defs) := by
  simp only [addVersion, rekeyAll, rangeDefs_mapSet]

theorem mapGet_addVersion (m : VerDefsMap) (ver v : String) (defs : List Definition) :
    mapGet (addVersion m ver defs) v = if ver = v then some (rekeyAll defs) else mapGet m v := by
  rw [addVersion_eq, mapGet_mapSet]

theorem rangeOsVers_append (a b : List (String × List Definition)) :
    ∀ m : VerDefsMap, rangeOsVers m (a ++ b) = rangeOsVers (rangeOsVers m a) b := by
  induction a with
  | nil => intro m; rfl
  | cons e a ih =>
    intro m
    obtain ⟨k, defs⟩ := e
    show rangeOsVers (addVersion m k defs) (a ++ b) = _
    rw [ih]
    rfl

theorem mapGet_rangeOsVers (pairs : List (String × List Definition)) (v : String) :
    ∀ m : VerDefsMap, mapGet (rangeOsVers m pairs) v =
      match lastYield v pairs with
      | some defs => some (rekeyAll defs)
      | none => mapGet m v := by
  induction pairs with
  | nil => intro m; rfl
  | cons e rest ih =>
    intro m
    obtain ⟨k, defs⟩ := e
    simp only [rangeOsVers, lastYield, ih]
    cases hl : lastYield v rest with
    | some later => rfl
    | none =>
      by_cases hk : k = v
      · simp [hk, mapGet_addVersion]
      · simp [hk, mapGet_addVersion]

theorem mapKeys_nodup_rangeOsVers (pairs : List (String × List Definition)) :
    ∀ m : VerDefsMap, (mapKeys m).Nodup → (mapKeys (rangeOsVers m pairs)).Nodup := by
  induction pairs with
  | nil => intro m h; exact h
  | cons e rest ih =>
    intro m h
    obtain ⟨k, defs⟩ := e
    simp only [rangeOsVers]
    apply ih
    rw [addVersion_eq]
    exact mapKeys_nodup_mapSet m k _ h

/-- The conversion loop of either command, one document at a time. -/
theorem convertLoop_cons {Root : Type} (src : Source) (env : Env Root) (r : FetchResult)
    (rs : List FetchResult) (m : VerDefsMap) :
    convertLoop src env (r :: rs) m =
      match env.unmarshal r.body with
      | none => .error (.unmarshalXml r.url)
      | some root => convertLoop src env rs (rangeOsVers m (yieldOf src env r root)) := by
  cases src <;> simp only [convertLoop, redhatLoop, oracleLoop, yieldOf, rangeOsVers]

theorem convertLoop_nil {Root : Type} (src : Source) (env : Env Root) (m : VerDefsMap) :
    convertLoop src env [] m = .ok m := by
  cases src <;> rfl

/-- A conversion loop that returns a corpus has folded every pair the documents
contribute into the map, in order. -/
theorem convertLoop_ok {Root : Type} (src : Source) (env : Env Root) (results : List FetchResult) :
    ∀ (m corpus : VerDefsMap), convertLoop src env results m = .ok corpus →
      corpus = rangeOsVers m (allYields src env results) ∧
      ∀ r ∈ results, ∃ root, env.unmarshal r.body = some root := by
  induction results with
  | nil =>
    intro m corpus h
    rw [convertLoop_nil] at h
    cases h
    exact ⟨rfl, by simp⟩
  | cons r rs ih =>
    intro m corpus h
    rw [convertLoop_cons] at h
    cases hp : env.unmarshal r.body with
    | none => simp [hp] at h
    | some root =>
      simp only [hp] at h
      obtain ⟨h1, h2⟩ := ih _ _ h
      refine ⟨?_, ?_⟩
      · simp only [allYields, hp, rangeOsVers_append]
        exact h1
      · intro r1 hr1
        rcases List.mem_cons.mp hr1 with heq | hin
        · subst heq
          exact ⟨root, hp⟩
        · exact h2 r1 hin

/-- A conversion loop whose documents all parse returns a corpus. -/
theorem convertLoop_total {Root : Type} (src : Source) (env : Env Root)
    (results : List FetchResult) :
    ∀ m : VerDefsMap, (∀ r ∈ results, ∃ root, env.unmarshal r.body = some root) →
      ∃ corpus, convertLoop src env results m = .ok corpus := by
  induction results with
  | nil => intro m _; exact ⟨m, convertLoop_nil src env m⟩
  | cons r rs ih =>
    intro m h
    obtain ⟨root, hp⟩ := h r (List.mem_cons_self _ _)
    rw [convertLoop_cons]
    simp only [hp]
    exact ih _ (fun r1 hr1 => h r1 (List.mem_cons_of_mem _ hr1))

/-- A conversion loop with a document that does not parse returns an error. -/
theorem convertLoop_error {Root : Type} (src : Source) (env : Env Root)
    (results : List FetchResult) :
    ∀ m : VerDefsMap, (∃ r ∈ results, env.unmarshal r.body = none) →
      ∃ url, convertLoop src env results m = .error (.unmarshalXml url) := by
  induction results with
  | nil => intro m h; simp at h
  | cons r rs ih =>
    intro m h
    rw [convertLoop_cons]
    cases hp : env.unmarshal r.body with
    | none => exact ⟨r.url, rfl⟩
    | some root =>
      simp only
      apply ih
      obtain ⟨r1, hr1, hn⟩ := h
      rcases List.mem_cons.mp hr1 with heq | hin
      · subst heq
        rw [hp] at hn
        cases hn
      · exact ⟨r1, hin, hn⟩

/-! ## Lemmas on the inner map of one version -/

theorem mapGet_innerAppend (inner : List (String × List Definition)) (d : Definition)
    (c : Cve) (k : String) :
    mapGet (innerAppend inner d c) k =
      if c.cveID = k then some ((mapGet inner k).getD [] ++ [rekey d c]) else mapGet inner k := by
  unfold innerAppend
  rw [mapGet_mapSet]
  by_cases h : c.cveID = k
  · subst h
    simp
  · simp [h]

theorem mapGet_innerCves (d : Definition) (k : String) (cves : List Cve) :
    ∀ inner : List (String × List Definition),
      mapGet (innerCves inner d cves) k =
        if walkCves k d cves = [] then mapGet inner k
        else some ((mapGet inner k).getD [] ++ walkCves k d cves) := by
  induction cves with
  | nil => intro inner; simp [innerCves, walkCves]
  | cons c cs ih =>
    intro inner
    simp only [innerCves, walkCves, ih, mapGet_innerAppend]
    by_cases hc : c.cveID = k
    · simp only [hc, if_true]
      by_cases hw : walkCves k d cs = []
      · simp [hw]
      · simp [hw]
    · simp only [hc, if_false]

theorem mapGet_innerDefs (k : String) (defs : List Definition) :
    ∀ inner : List (String × List Definition),
      mapGet (innerDefs inner defs) k =
        if referenceList k defs = [] then mapGet inner k
        else some ((mapGet inner k).getD [] ++ referenceList k defs) := by
  induction defs with
  | nil => intro inner; simp [innerDefs, referenceList]
  | cons d ds ih =>
    intro inner
    simp only [innerDefs, referenceList, ih, mapGet_innerCves]
    by_cases h1 : walkCves k d d.advisory.cves = []
    · simp [h1]
    · by_cases h2 : referenceList k ds = []
      · simp [h1, h2]
      · simp [h1, h2]

theorem mapGet_rekeyAll (k : String) (defs : List Definition) :
    mapGet (rekeyAll defs) k =
      if referenceList k defs = [] then none else some (referenceList k defs) := by
  unfold rekeyAll
  rw [mapGet_innerDefs]
  simp [mapGet]

theorem mapGet_rekeyAll_getD (k : String) (defs : List Definition) :
    (mapGet (rekeyAll defs) k).getD [] = referenceList k defs := by
  rw [mapGet_rekeyAll]
  by_cases h : referenceList k defs = []
  · simp [h]
  · simp [h]

theorem mem_walkCves (k : String) (d x : Definition) (cves : List Cve) :
    x ∈ walkCves k d cves ↔ ∃ c ∈ cves, c.cveID = k ∧ x = rekey d c := by
  induction cves with
  | nil => simp [walkCves]
  | cons c cs ih =>
    by_cases hc : c.cveID = k
    · simp only [walkCves, hc, if_true, List.mem_cons, ih]
      constructor
      · rintro (h | ⟨c1, h1, h2, h3⟩)
        · exact ⟨c, Or.inl rfl, hc, h⟩
        · exact ⟨c1, Or.inr h1, h2, h3⟩
      · rintro ⟨c1, h1 | h1, h2, h3⟩
        · subst h1
          exact Or.inl h3
        · exact Or.inr ⟨c1, h1, h2, h3⟩
    · simp only [walkCves, hc, if_false, ih, List.mem_cons]
      constructor
      · rintro ⟨c1, h1, h2, h3⟩
        exact ⟨c1, Or.inr h1, h2, h3⟩
      · rintro ⟨c1, h1 | h1, h2, h3⟩
        · subst h1
          exact absurd h2 hc
        · exact ⟨c1, h1, h2, h3⟩

theorem mem_referenceList (k : String) (x : Definition) (defs : List Definition) :
    x ∈ referenceList k defs ↔
      ∃ d ∈ defs, ∃ c ∈ d.advisory.cves, c.cveID = k ∧ x = rekey d c := by
  induction defs with
  | nil => simp [referenceList]
  | cons d ds ih =>
    simp only [referenceList, List.mem_append, mem_walkCves, ih, List.mem_cons]
    constructor
    · rintro (h | ⟨d1, h1, h2⟩)
      · exact ⟨d, Or.inl rfl, h⟩
      · exact ⟨d1, Or.inr h1, h2⟩
    · rintro ⟨d1, h1 | h1, h2⟩
      · subst h1
        exact Or.inl h2
      · exact Or.inr ⟨d1, h1, h2⟩

theorem mapKeys_nodup_innerCves (d : Definition) (cves : List Cve) :
    ∀ inner : List (String × List Definition),
      (mapKeys inner).Nodup → (mapKeys (innerCves inner d cves)).Nodup := by
  induction cves with
  | nil => intro inner h; exact h
  | cons c cs ih =>
    intro inner h
    exact ih _ (mapKeys_nodup_mapSet inner _ _ h)

theorem mapKeys_nodup_innerDefs (defs : List Definition) :
    ∀ inner : List (String × List Definition),
      (mapKeys inner).Nodup → (mapKeys (innerDefs inner defs)).Nodup := by
  induction defs with
  | nil => intro inner h; exact h
  | cons d ds ih =>
    intro inner h
    exact ih _ (mapKeys_nodup_innerCves d _ inner h)

theorem mapKeys_nodup_rekeyAll (defs : List Definition) : (mapKeys (rekeyAll defs)).Nodup :=
  mapKeys_nodup_innerDefs defs [] (by simp [mapKeys])

/-- Appending one record to the list of a key adds one to the number of records
of an inner map. -/
theorem total_mapSet_append (inner : List (String × List Definition)) (k : String)
    (x : Definition) :
    ((mapSet inner k ((mapGet inner k).getD [] ++ [x])).map (fun e => e.2.length)).sum =
      (inner.map (fun e => e.2.length)).sum + 1 := by
  induction inner with
  | nil => simp [mapSet, mapGet]
  | cons e m ih =>
    obtain ⟨k1, w⟩ := e
    by_cases h1 : k1 = k
    · subst h1
      simp [mapSet, mapGet]
      omega
    · simp [mapSet, mapGet, h1, ih]
      omega

theorem total_innerCves (d : Definition) (cves : List Cve) :
    ∀ inner : List (String × List Definition),
      ((innerCves inner d cves).map (fun e => e.2.length)).sum =
        (inner.map (fun e => e.2.length)).sum + cves.length := by
  induction cves with
  | nil => intro inner; simp [innerCves]
  | cons c cs ih =>
    intro inner
    simp only [innerCves, ih, innerAppend, total_mapSet_append, List.length_cons]
    omega

theorem total_innerDefs (defs : List Definition) :
    ∀ inner : List (String × List Definition),
      ((innerDefs inner defs).map (fun e => e.2.length)).sum =
        (inner.map (fun e => e.2.length)).sum + cveCount defs := by
  induction defs with
  | nil => intro inner; simp [innerDefs, cveCount]
  | cons d ds ih =>
    intro inner
    simp only [innerDefs, ih, total_innerCves, cveCount, List.map_cons, List.sum_cons]
    omega

theorem total_rekeyAll (defs : List Definition) :
    ((rekeyAll defs).map (fun e => e.2.length)).sum = cveCount defs := by
  unfold rekeyAll
  rw [total_innerDefs]
  simp

/-- One pass of the CVE loop adds as many records under the version as the
record lists CVEs, whatever the map held before. -/
theorem storedUnder_rangeCves (ver : String) (d : Definition) (cves : List Cve) :
    ∀ m : VerDefsMap,
      storedUnder (rangeCves m ver d cves) ver = storedUnder m ver + cves.length := by
  induction cves with
  | nil => intro m; simp [rangeCves]
  | cons c cs ih =>
    intro m
    simp only [rangeCves, ih, List.length_cons]
    have : storedUnder (appendRekeyed m ver d c) ver = storedUnder m ver + 1 := by
      simp only [storedUnder, appendRekeyed, mapGet_mapSet, if_true, Option.getD_some]
      exact total_mapSet_append _ _ _
    omega

/-! ## The corpus a run accumulates -/

theorem lastYield_append (v : String) (a b : List (String × List Definition)) :
    lastYield v (a ++ b) =
      match lastYield v b with
      | some defs => some defs
      | none => lastYield v a := by
  induction a with
  | nil =>
    simp only [List.nil_append, lastYield]
    cases lastYield v b <;> rfl
  | cons e a ih =>
    obtain ⟨k, defs⟩ := e
    show lastYield v ((k, defs) :: (a ++ b)) = _
    simp only [lastYield, ih]
    cases lastYield v b <;> rfl

theorem lastYield_none (v : String) (b : List (String × List Definition))
    (h : v ∉ mapKeys b) : lastYield v b = none := by
  induction b with
  | nil => rfl
  | cons e b ih =>
    obtain ⟨k, defs⟩ := e
    simp only [mapKeys, List.map_cons, List.mem_cons, not_or] at h
    have hk : ¬ k = v := fun hh => h.1 hh.symm
    simp only [lastYield, ih h.2, hk, if_false]

theorem lastYield_mem (v : String) (defs : List Definition)
    (b : List (String × List Definition)) (h : lastYield v b = some defs) : (v, defs) ∈ b := by
  induction b with
  | nil => simp [lastYield] at h
  | cons e b ih =>
    obtain ⟨k, ds⟩ := e
    simp only [lastYield] at h
    cases hl : lastYield v b with
    | some later =>
      rw [hl] at h
      cases h
      exact List.mem_cons_of_mem _ (ih hl)
    | none =>
      rw [hl] at h
      by_cases hk : k = v
      · simp only [hk, if_true] at h
        cases h
        subst hk
        exact List.mem_cons_self _ _
      · simp [hk] at h

theorem lastYield_of_mem (v : String) (defs : List Definition)
    (b : List (String × List Definition)) (hnd : (mapKeys b).Nodup) (h : (v, defs) ∈ b) :
    lastYield v b = some defs := by
  induction b with
  | nil => simp at h
  | cons e b ih =>
    obtain ⟨k, ds⟩ := e
    simp only [mapKeys, List.map_cons, List.nodup_cons] at hnd
    rcases List.mem_cons.mp h with heq | hin
    · cases heq
      simp only [lastYield, lastYield_none v b hnd.1, if_true]
    · simp only [lastYield, ih hnd.2 hin]

theorem corpusAt_rangeOsVers (pairs : List (String × List Definition)) (m : VerDefsMap)
    (v k : String) :
    corpusAt (rangeOsVers m pairs) v k =
      match lastYield v pairs with
      | some defs => referenceList k defs
      | none => corpusAt m v k := by
  unfold corpusAt
  rw [mapGet_rangeOsVers]
  cases lastYield v pairs with
  | none => rfl
  | some defs => simp [mapGet_rekeyAll_getD]

theorem allYields_append {Root : Type} (src : Source) (env : Env Root)
    (pre rest : List FetchResult) (h : ∀ r ∈ pre, ∃ root, env.unmarshal r.body = some root) :
    allYields src env (pre ++ rest) = allYields src env pre ++ allYields src env rest := by
  induction pre with
  | nil => rfl
  | cons r rs ih =>
    obtain ⟨root, hp⟩ := h r (List.mem_cons_self _ _)
    show allYields src env (r :: (rs ++ rest)) = _
    simp only [allYields, hp, List.append_assoc]
    rw [ih (fun r1 hr1 => h r1 (List.mem_cons_of_mem _ hr1))]

theorem mem_allYields {Root : Type} (src : Source) (env : Env Root) (v : String)
    (defs : List Definition) (results : List FetchResult)
    (h : (v, defs) ∈ allYields src env results) :
    ∃ r ∈ results, ∃ root, env.unmarshal r.body = some root ∧
      (v, defs) ∈ yieldOf src env r root := by
  induction results with
  | nil => simp [allYields] at h
  | cons r rs ih =>
    simp only [allYields] at h
    cases hp : env.unmarshal r.body with
    | none => simp [hp] at h
    | some root =>
      simp only [hp, List.mem_append] at h
      rcases h with h | h
      · exact ⟨r, List.mem_cons_self _ _, root, hp, h⟩
      · obtain ⟨r1, hr1, rest⟩ := ih h
        exact ⟨r1, List.mem_cons_of_mem _ hr1, rest⟩

theorem not_mem_keys_allYields {Root : Type} (src : Source) (env : Env Root) (v : String)
    (post : List FetchResult)
    (h : ∀ r ∈ post, ∀ root, env.unmarshal r.body = some root →
      v ∉ mapKeys (yieldOf src env r root)) :
    v ∉ mapKeys (allYields src env post) := by
  intro hv
  simp only [mapKeys, List.mem_map] at hv
  obtain ⟨⟨k, defs⟩, hmem, hk⟩ := hv
  simp only at hk
  subst hk
  obtain ⟨r, hr, root, hp, hy⟩ := mem_allYields src env k defs post hmem
  exact h r hr root hp (by simpa [mapKeys] using ⟨defs, hy⟩)

/-- The inner map of a version in the corpus of a run is the re-keying of the
last record sequence attributed to that version. -/
theorem corpus_last {Root : Type} (src : Source) (env : Env Root)
    (pre post : List FetchResult) (r : FetchResult) (root : Root) (corpus : VerDefsMap)
    (v : String) (defs : List Definition)
    (hloop : convertLoop src env (pre ++ r :: post) [] = .ok corpus)
    (hroot : env.unmarshal r.body = some root)
    (hnd : (mapKeys (yieldOf src env r root)).Nodup)
    (hmem : (v, defs) ∈ yieldOf src env r root)
    (hpost : ∀ r2 ∈ post, ∀ root2, env.unmarshal r2.body = some root2 →
      v ∉ mapKeys (yieldOf src env r2 root2)) :
    mapGet corpus v = some (rekeyAll defs) := by
  obtain ⟨hc, hall⟩ := convertLoop_ok src env _ _ _ hloop
  have hpre : ∀ r1 ∈ pre, ∃ root1, env.unmarshal r1.body = some root1 :=
    fun r1 hr1 => hall r1 (List.mem_append_left _ hr1)
  have hy : allYields src env (pre ++ r :: post) =
      allYields src env pre ++ (yieldOf src env r root ++ allYields src env post) := by
    rw [allYields_append src env pre _ hpre]
    simp only [allYields, hroot]
  have hlast : lastYield v (allYields src env (pre ++ r :: post)) = some defs := by
    rw [hy, lastYield_append, lastYield_append,
      lastYield_none v _ (not_mem_keys_allYields src env v post hpost),
      lastYield_of_mem v defs _ hnd hmem]
  rw [hc, mapGet_rangeOsVers, hlast]

/-- Every inner map of the corpus of a run is the re-keying of a record sequence
that a document of the run contributed under that version. -/
theorem corpus_origin {Root : Type} (src : Source) (env : Env Root)
    (results : List FetchResult) (corpus : VerDefsMap)
    (hloop : convertLoop src env results [] = .ok corpus) (v : String)
    (inner : List (String × List Definition)) (hv : mapGet corpus v = some inner) :
    ∃ r ∈ results, ∃ root, env.unmarshal r.body = some root ∧
      ∃ defs, (v, defs) ∈ yieldOf src env r root ∧ inner = rekeyAll defs := by
  obtain ⟨hc, _⟩ := convertLoop_ok src env _ _ _ hloop
  rw [hc, mapGet_rangeOsVers] at hv
  cases hl : lastYield v (allYields src env results) with
  | none => simp [hl, mapGet] at hv
  | some defs =>
    simp only [hl, Option.some.injEq] at hv
    obtain ⟨r, hr, root, hp, hy⟩ :=
      mem_allYields src env v defs results (lastYield_mem v defs _ hl)
    exact ⟨r, hr, root, hp, defs, hy, hv.symm⟩

theorem corpus_nodup {Root : Type} (src : Source) (env : Env Root)
    (results : List FetchResult) (corpus : VerDefsMap)
    (hloop : convertLoop src env results [] = .ok corpus) : (mapKeys corpus).Nodup := by
  obtain ⟨hc, _⟩ := convertLoop_ok src env _ _ _ hloop
  rw [hc]
  exact mapKeys_nodup_rangeOsVers _ [] (by simp [mapKeys])

theorem mem_corpusAt {Root : Type} (src : Source) (env : Env Root)
    (results : List FetchResult) (corpus : VerDefsMap)
    (hloop : convertLoop src env results [] = .ok corpus) (v k : String) (x : Definition)
    (hx : x ∈ corpusAt corpus v k) :
    ∃ r ∈ results, ∃ root, env.unmarshal r.body = some root ∧
      ∃ defs, (v, defs) ∈ yieldOf src env r root ∧
        ∃ d ∈ defs, ∃ c ∈ d.advisory.cves, c.cveID = k ∧ x = rekey d c := by
  unfold corpusAt at hx
  cases hv : mapGet corpus v with
  | none => simp [hv, mapGet] at hx
  | some inner =>
    obtain ⟨r, hr, root, hp, defs, hy, hin⟩ := corpus_origin src env results corpus hloop v inner hv
    rw [hv, Option.getD_some, hin, mapGet_rekeyAll_getD] at hx
    exact ⟨r, hr, root, hp, defs, hy, (mem_referenceList k x defs).mp hx⟩

/-! ## Claims on the accumulated corpus -/

/-- C1 (the code departs from the claim). Two documents fetched for version 7
both yield a record listing CVE-2020-1. After the conversion loop of either
command the list at `corpus["7"]["CVE-2020-1"]` holds the re-keyed record of the
second document only: the copy of the first document's record is gone, because
the inner map of the version is assigned afresh for each document. -/
theorem accumulation_drops_earlier_document :
    (∃ corpus, redhatLoop sampleEnv (sampleDocs.take 2) [] = .ok corpus ∧
      corpusAt corpus "7" "CVE-2020-1" = [rekey (sampleDef "RHSA-2" ["CVE-2020-1"]) ⟨"CVE-2020-1", "cvss"⟩] ∧
      rekey (sampleDef "RHSA-1" ["CVE-2020-1", "CVE-2020-2"]) ⟨"CVE-2020-1", "cvss"⟩ ∉
        corpusAt corpus "7" "CVE-2020-1") ∧
    (∃ corpus, oracleLoop sampleEnv (sampleDocs.take 2) [] = .ok corpus ∧
      corpusAt corpus "7" "CVE-2020-1" = [rekey (sampleDef "ELSA-2" ["CVE-2020-1"]) ⟨"CVE-2020-1", "cvss"⟩] ∧
      rekey (sampleDef "ELSA-1" ["CVE-2020-1", "CVE-2020-2"]) ⟨"CVE-2020-1", "cvss"⟩ ∉
        corpusAt corpus "7" "CVE-2020-1") := by
  refine ⟨⟨_, rfl, by decide, by decide⟩, ⟨_, rfl, by decide, by decide⟩⟩

theorem length_walkCves (c : String) (d : Definition) (cves : List Cve) :
    (walkCves c d cves).length = cves.countP (fun cve => decide (cve.cveID = c)) := by
  induction cves with
  | nil => rfl
  | cons x xs ih =>
    by_cases h : x.cveID = c
    · simp [walkCves, h, ih]
    · simp [walkCves, h, ih]

theorem length_referenceList (c : String) (defs : List Definition) :
    (referenceList c defs).length =
      (defs.map (fun d => d.advisory.cves.countP (fun cve => decide (cve.cveID = c)))).sum := by
  induction defs with
  | nil => rfl
  | cons d ds ih => simp [referenceList, length_walkCves, ih]

theorem rekey_sameExceptCves (d : Definition) (c : Cve) :
    SameExceptCves (rekey d c) d ∧ (rekey d c).advisory.cves = [c] :=
  ⟨⟨rfl, rfl, rfl, rfl, rfl, rfl, rfl, rfl, rfl, rfl, rfl⟩, rfl⟩

theorem corpusAt_appendRekeyed (m : VerDefsMap) (ver : String) (d : Definition) (c : Cve) :
    corpusAt (appendRekeyed m ver d c) ver c.cveID = corpusAt m ver c.cveID ++ [rekey d c] := by
  simp [corpusAt, appendRekeyed, mapGet_mapSet]

/-- C2. Let a run consist of the documents `pre ++ r :: post`, let the
conversion loop of either command return `corpus`, and let `defs` be the record
sequence that document `r` yields under version key `v` (no later document
yielding that key). Then the number of records stored under `v`, summed over all
CVE keys, is the sum of the CVE-list lengths of `defs`, as it is in the map right
after the sequence has been processed, whatever the map held before; one pass of
the CVE loop for a record adds exactly as many records as the record lists CVEs;
a record without CVEs leaves the map as it was and is in no list of the corpus. -/
theorem fanout_count {Root : Type} (src : Source) (env : Env Root)
    (pre post : List FetchResult) (r : FetchResult) (root : Root) (corpus : VerDefsMap)
    (v : String) (defs : List Definition)
    (hloop : convertLoop src env (pre ++ r :: post) [] = .ok corpus)
    (hroot : env.unmarshal r.body = some root)
    (hnd : (mapKeys (yieldOf src env r root)).Nodup)
    (hmem : (v, defs) ∈ yieldOf src env r root)
    (hpost : ∀ r2 ∈ post, ∀ root2, env.unmarshal r2.body = some root2 →
      v ∉ mapKeys (yieldOf src env r2 root2)) :
    storedUnder corpus v = cveCount defs ∧
    (∀ m : VerDefsMap, storedUnder (addVersion m v defs) v = cveCount defs) ∧
    (∀ (m : VerDefsMap) (d : Definition),
      storedUnder (rangeCves m v d d.advisory.cves) v = storedUnder m v + d.advisory.cves.length) ∧
    (∀ (m : VerDefsMap) (d : Definition), d.advisory.cves = [] →
      rangeCves m v d d.advisory.cves = m) ∧
    (∀ d : Definition, d.advisory.cves = [] → ∀ ver k, d ∉ corpusAt corpus ver k) := by
  refine ⟨?_, ?_, ?_, ?_, ?_⟩
  · have h := corpus_last src env pre post r root corpus v defs hloop hroot hnd hmem hpost
    simp only [storedUnder, h, Option.getD_some, total_rekeyAll]
  · intro m
    simp only [storedUnder, mapGet_addVersion, if_true, Option.getD_some, total_rekeyAll]
  · intro m d
    exact storedUnder_rangeCves v d _ m
  · intro m d hd
    rw [hd]
    rfl
  · intro d hd ver k hin
    obtain ⟨_, _, _, _, _, _, d0, _, c, _, _, hx⟩ :=
      mem_corpusAt src env _ corpus hloop ver k d hin
    rw [hx] at hd
    simp [rekey] at hd

/-- A run of one parsed document with two records, one listing two CVEs and one
listing none: two records are stored under version 7. -/
theorem fanout_count_witness :
    storedUnder (corpusOf (convertLoop .redhat sampleEnv (sampleDocs.take 1) [])) "7" =
      cveCount [sampleDef "RHSA-1" ["CVE-2020-1", "CVE-2020-2"], sampleDef "RHSA-0" []] :=
  (fanout_count .redhat sampleEnv [] [] ⟨"7", "url-a", "doc-a"⟩ "doc-a"
    (corpusOf (convertLoop .redhat sampleEnv (sampleDocs.take 1) [])) "7"
    [sampleDef "RHSA-1" ["CVE-2020-1", "CVE-2020-2"], sampleDef "RHSA-0" []]
    rfl rfl (by decide) (by decide) (by simp)).1

/-- C3. In the corpus that the conversion loop of either command returns, for
any list of fetched documents, every record of the list stored under a version
and a CVE key `k` lists exactly one CVE, whose identifier is `k`. This holds for
the entries of the maps and for the lists read as `corpus[version][k]`. -/
theorem single_cve_invariant {Root : Type} (src : Source) (env : Env Root)
    (results : List FetchResult) (corpus : VerDefsMap)
    (hloop : convertLoop src env results [] = .ok corpus) :
    (∀ ver inner, (ver, inner) ∈ corpus → ∀ k lst, (k, lst) ∈ inner → ∀ d ∈ lst,
      d.advisory.cves.length = 1 ∧ ∃ c, d.advisory.cves = [c] ∧ c.cveID = k) ∧
    (∀ ver k, ∀ d ∈ corpusAt corpus ver k,
      d.advisory.cves.length = 1 ∧ ∃ c, d.advisory.cves = [c] ∧ c.cveID = k) := by
  have key : ∀ ver k, ∀ d ∈ corpusAt corpus ver k,
      d.advisory.cves.length = 1 ∧ ∃ c, d.advisory.cves = [c] ∧ c.cveID = k := by
    intro ver k d hd
    obtain ⟨_, _, _, _, _, _, d0, _, c, _, hck, hx⟩ :=
      mem_corpusAt src env _ corpus hloop ver k d hd
    subst hx
    exact ⟨rfl, c, rfl, hck⟩
  refine ⟨?_, key⟩
  intro ver inner hv k lst hk d hd
  have h1 := mapGet_of_mem corpus (corpus_nodup src env results corpus hloop) ver inner hv
  obtain ⟨_, _, _, _, defs, _, hin⟩ := corpus_origin src env results corpus hloop ver inner h1
  have h2 : mapGet inner k = some lst := by
    apply mapGet_of_mem inner _ k lst hk
    rw [hin]
    exact mapKeys_nodup_rekeyAll defs
  apply key ver k d
  simp only [corpusAt, h1, h2, Option.getD_some]
  exact hd

/-- The record stored for CVE-2020-1 under version 7 by a run of the first two
sample documents lists that CVE only. -/
theorem single_cve_invariant_witness :
    (rekey (sampleDef "RHSA-2" ["CVE-2020-1"]) ⟨"CVE-2020-1", "cvss"⟩).advisory.cves.length = 1 ∧
    ∃ c, (rekey (sampleDef "RHSA-2" ["CVE-2020-1"]) ⟨"CVE-2020-1", "cvss"⟩).advisory.cves = [c] ∧
      c.cveID = "CVE-2020-1" :=
  (single_cve_invariant .redhat sampleEnv (sampleDocs.take 2)
    (corpusOf (convertLoop .redhat sampleEnv (sampleDocs.take 2) [])) rfl).2
    "7" "CVE-2020-1" _ (by decide)

/-- C4. The record that one execution of the append statement emits for a record
`d` and a CVE reference `c` is `rekey d c`, added at the end of the list of
`c.cveID`; it equals `d` in every field except `advisory.cves`, which is `[c]`
with `c` unchanged. Every record of the corpus a conversion loop returns is such
a copy of a record that a document of the run yielded under that version. -/
theorem rekey_preserves_fields {Root : Type} (src : Source) (env : Env Root)
    (results : List FetchResult) (corpus : VerDefsMap)
    (hloop : convertLoop src env results [] = .ok corpus) :
    (∀ (m : VerDefsMap) (ver : String) (d : Definition) (c : Cve),
      corpusAt (appendRekeyed m ver d c) ver c.cveID = corpusAt m ver c.cveID ++ [rekey d c] ∧
      SameExceptCves (rekey d c) d ∧ (rekey d c).advisory.cves = [c]) ∧
    (∀ ver k, ∀ x ∈ corpusAt corpus ver k,
      ∃ r ∈ results, ∃ root, env.unmarshal r.body = some root ∧
        ∃ defs, (ver, defs) ∈ yieldOf src env r root ∧
          ∃ d ∈ defs, ∃ c ∈ d.advisory.cves, c.cveID = k ∧
            SameExceptCves x d ∧ x.advisory.cves = [c]) := by
  refine ⟨?_, ?_⟩
  · intro m ver d c
    exact ⟨corpusAt_appendRekeyed m ver d c, rekey_sameExceptCves d c⟩
  · intro ver k x hx
    obtain ⟨r, hr, root, hp, defs, hy, d, hd, c, hc, hck, hxe⟩ :=
      mem_corpusAt src env _ corpus hloop ver k x hx
    subst hxe
    exact ⟨r, hr, root, hp, defs, hy, d, hd, c, hc, hck, rekey_sameExceptCves d c⟩

/-- The copy emitted for the sample record and CVE-2020-2 keeps the affected
package list and every other field. -/
theorem rekey_preserves_fields_witness :
    SameExceptCves (rekey (sampleDef "RHSA-1" ["CVE-2020-1", "CVE-2020-2"]) ⟨"CVE-2020-2", "cvss"⟩)
      (sampleDef "RHSA-1" ["CVE-2020-1", "CVE-2020-2"]) ∧
    (rekey (sampleDef "RHSA-1" ["CVE-2020-1", "CVE-2020-2"]) ⟨"CVE-2020-2", "cvss"⟩).advisory.cves =
      [⟨"CVE-2020-2", "cvss"⟩] :=
  ((rekey_preserves_fields .redhat sampleEnv (sampleDocs.take 1)
    (corpusOf (convertLoop .redhat sampleEnv (sampleDocs.take 1) [])) rfl).1
    [] "7" (sampleDef "RHSA-1" ["CVE-2020-1", "CVE-2020-2"]) ⟨"CVE-2020-2", "cvss"⟩).2

/-- C5. Let a run consist of the documents `pre ++ r :: post`, let the
conversion loop of either command return `corpus`, and let `defs` be the record
sequence that document `r` yields under version key `v` (no later document
yielding that key). Then for every CVE identifier `c` the list at
`corpus[v][c]` is the reference list: the records in input order, the CVE
references of each in order, one re-keyed copy per reference with identifier
`c`. Its length counts every such reference, so nothing is merged or dropped.
The same list stands in the map right after the sequence has been processed,
whatever the map held before. -/
theorem rekeyed_list_in_input_order {Root : Type} (src : Source) (env : Env Root)
    (pre post : List FetchResult) (r : FetchResult) (root : Root) (corpus : VerDefsMap)
    (v : String) (defs : List Definition)
    (hloop : convertLoop src env (pre ++ r :: post) [] = .ok corpus)
    (hroot : env.unmarshal r.body = some root)
    (hnd : (mapKeys (yieldOf src env r root)).Nodup)
    (hmem : (v, defs) ∈ yieldOf src env r root)
    (hpost : ∀ r2 ∈ post, ∀ root2, env.unmarshal r2.body = some root2 →
      v ∉ mapKeys (yieldOf src env r2 root2)) :
    ∀ c, corpusAt corpus v c = referenceList c defs ∧
      (corpusAt corpus v c).length =
        (defs.map (fun d => d.advisory.cves.countP (fun cve => decide (cve.cveID = c)))).sum ∧
      ∀ m : VerDefsMap, corpusAt (addVersion m v defs) v c = referenceList c defs := by
  intro c
  have h := corpus_last src env pre post r root corpus v defs hloop hroot hnd hmem hpost
  have h2 : corpusAt corpus v c = referenceList c defs := by
    simp only [corpusAt, h, Option.getD_some, mapGet_rekeyAll_getD]
  refine ⟨h2, by rw [h2, length_referenceList], ?_⟩
  intro m
  simp only [corpusAt, mapGet_addVersion, if_true, Option.getD_some, mapGet_rekeyAll_getD]

/-- The Oracle sample document yields two versions; the list of CVE-2020-1 under
version 7 is the reference list of the records yielded under version 7. -/
theorem rekeyed_list_in_input_order_witness :
    corpusAt (corpusOf (convertLoop .oracle sampleEnv (sampleDocs.take 1) [])) "7" "CVE-2020-1" =
      referenceList "CVE-2020-1"
        [sampleDef "ELSA-1" ["CVE-2020-1", "CVE-2020-2"], sampleDef "ELSA-0" []] :=
  (rekeyed_list_in_input_order .oracle sampleEnv [] [] ⟨"7", "url-a", "doc-a"⟩ "doc-a"
    (corpusOf (convertLoop .oracle sampleEnv (sampleDocs.take 1) [])) "7"
    [sampleDef "ELSA-1" ["CVE-2020-1", "CVE-2020-2"], sampleDef "ELSA-0" []]
    rfl rfl (by decide) (by decide) (by simp) "CVE-2020-1").1

/-- C9. When the only fetched document carries the version label `r.target` and
parses, the conversion loop of `convertRedHat` returns a corpus whose only
version key is that label, whatever the parsed document and the records contain;
every record the converter yields is stored, re-keyed, under that label at each
of its CVE identifiers, and no list under any other version holds a record. -/
theorem redhat_version_from_label {Root : Type} (env : Env Root) (r : FetchResult) (root : Root)
    (hroot : env.unmarshal r.body = some root) :
    ∃ corpus, redhatLoop env [r] [] = .ok corpus ∧
      mapKeys corpus = [r.target] ∧
      (∀ d ∈ env.convertRedHatToModel root, ∀ c ∈ d.advisory.cves,
        rekey d c ∈ corpusAt corpus r.target c.cveID) ∧
      (∀ ver k x, x ∈ corpusAt corpus ver k → ver = r.target) := by
  refine ⟨addVersion [] r.target (env.convertRedHatToModel root), ?_, ?_, ?_, ?_⟩
  · simp only [redhatLoop, hroot]
  · rw [addVersion_eq]
    rfl
  · intro d hd c hc
    simp only [corpusAt, mapGet_addVersion, if_true, Option.getD_some, mapGet_rekeyAll_getD]
    exact (mem_referenceList _ _ _).mpr ⟨d, hd, c, hc, rfl, rfl⟩
  · intro ver k x hx
    by_contra hne
    have hne2 : ¬ r.target = ver := fun h => hne h.symm
    simp [corpusAt, mapGet_addVersion, hne2, mapGet] at hx

/-- The sample document fetched for version 7 puts its records under version 7
only. -/
theorem redhat_version_from_label_witness :
    ∃ corpus, redhatLoop sampleEnv [⟨"7", "url-a", "doc-a"⟩] [] = .ok corpus ∧
      mapKeys corpus = ["7"] ∧
      (∀ d ∈ sampleEnv.convertRedHatToModel "doc-a", ∀ c ∈ d.advisory.cves,
        rekey d c ∈ corpusAt corpus "7" c.cveID) ∧
      (∀ ver k x, x ∈ corpusAt corpus ver k → ver = "7") :=
  redhat_version_from_label sampleEnv ⟨"7", "url-a", "doc-a"⟩ "doc-a" rfl

/-! ## Lemmas on paths -/

theorem splitSlash_noSlash (cs : List Char) (h : '/' ∉ cs) : splitSlash cs = [cs] := by
  induction cs with
  | nil => rfl
  | cons c cs ih =>
    simp only [List.mem_cons, not_or] at h
    have hc : ¬ c = '/' := fun hh => h.1 hh.symm
    simp only [splitSlash, hc, if_false, ih h.2]

theorem pathElems_noSlash (s : String) (h : NoSlash s) : pathElems s = [s] := by
  unfold pathElems
  rw [splitSlash_noSlash s.data h]
  rfl

theorem cleanStep_plain (stack : Path) (s : String) (h1 : s ≠ "") (h2 : s ≠ ".")
    (h3 : s ≠ "..") : cleanStep stack s = stack ++ [s] := by
  simp [cleanStep, h1, h2, h3]

theorem joinPath_one (base : Path) (s : String) (h : PlainName s) :
    joinPath base [s] = base ++ [s] := by
  obtain ⟨h0, h1, h2, h3⟩ := h
  simp only [joinPath, List.foldl, pathElems_noSlash s h0, cleanStep_plain base s h1 h2 h3]

theorem jsonName_noSlash (cve : String) (h : NoSlash cve) : NoSlash (cve ++ ".json") := by
  unfold NoSlash at *
  rw [String.data_append]
  intro hmem
  rcases List.mem_append.mp hmem with h1 | h1
  · exact h h1
  · revert h1
    decide

theorem jsonName_length (cve : String) : (cve ++ ".json").length = cve.length + 5 := by
  rw [String.length_append]
  rfl

theorem jsonName_plain (cve : String) (h : NoSlash cve) : PlainName (cve ++ ".json") := by
  refine ⟨jsonName_noSlash cve h, ?_, ?_, ?_⟩
  · intro he
    have := congrArg String.length he
    rw [jsonName_length] at this
    simp at this
  · intro he
    have := congrArg String.length he
    rw [jsonName_length] at this
    have h1 : (".").length = 1 := rfl
    omega
  · intro he
    have := congrArg String.length he
    rw [jsonName_length] at this
    have h1 : ("..").length = 2 := rfl
    omega

theorem jsonName_injective (a b : String) (h : a ++ ".json" = b ++ ".json") : a = b := by
  have h1 := congrArg String.data h
  rw [String.data_append, String.data_append] at h1
  have h2 := List.append_cancel_right h1
  exact String.ext h2

theorem joinPath_file (base : Path) (ver cve : String) (hv : PlainName ver) (hc : NoSlash cve) :
    joinPath base [ver, cve ++ ".json"] = base ++ [ver, cve ++ ".json"] := by
  obtain ⟨h0, h1, h2, h3⟩ := hv
  obtain ⟨g0, g1, g2, g3⟩ := jsonName_plain cve hc
  simp only [joinPath, List.foldl, pathElems_noSlash ver h0, pathElems_noSlash _ g0,
    cleanStep_plain base ver h1 h2 h3, cleanStep_plain _ _ g1 g2 g3, List.append_assoc,
    List.singleton_append]

/-! ## Lemmas on the file system -/

theorem mapGet_mapDel {V : Type} (m : List (String × V)) (x y : String) :
    mapGet (mapDel m x) y = if x = y then none else mapGet m y := by
  induction m with
  | nil => simp [mapDel, mapGet]
  | cons e m ih =>
    obtain ⟨k, v⟩ := e
    by_cases h2 : x = y
    · subst h2
      simp only [if_true] at ih ⊢
      by_cases h1 : k = x
      · simp [mapDel, h1, ih]
      · simp [mapDel, mapGet, h1, ih]
    · simp only [h2, if_false] at ih ⊢
      by_cases h1 : k = x
      · subst h1
        simp [mapDel, mapGet, h2, ih]
      · by_cases h3 : k = y
        · subst h3
          simp [mapDel, mapGet, h1]
        · simp [mapDel, mapGet, h1, h3, ih]

theorem mapGet_none_of_not_mem {V : Type} (m : List (String × V)) (x : String)
    (h : x ∉ mapKeys m) : mapGet m x = none := by
  cases hg : mapGet m x with
  | none => rfl
  | some v => exact absurd ((mem_mapKeys_iff m x).mpr ⟨v, hg⟩) h

theorem initOf_iff (p : Path) : ∀ q : Path, initOf p q = true ↔ ∃ rest, q = p ++ rest := by
  induction p with
  | nil => intro q; simp [initOf]
  | cons a p ih =>
    intro q
    cases q with
    | nil => simp [initOf]
    | cons b q =>
      simp only [initOf, Bool.and_eq_true, decide_eq_true_eq, ih q, List.cons_append,
        List.cons.injEq]
      constructor
      · rintro ⟨h1, rest, h2⟩
        exact ⟨rest, h1.symm, h2⟩
      · rintro ⟨rest, h1, h2⟩
        exact ⟨h1.symm, rest, h2⟩

theorem initOf_append (p rest : Path) : initOf p (p ++ rest) = true :=
  (initOf_iff p _).mpr ⟨rest, rfl⟩

theorem initOf_length (p q : Path) (h : initOf p q = true) : p.length ≤ q.length := by
  obtain ⟨rest, hr⟩ := (initOf_iff p q).mp h
  rw [hr, List.length_append]
  omega

theorem Node.get_nil (n : Node) : n.get [] = some n := by
  cases n <;> rfl

theorem Node.get_dir_cons (ks : List (String × Node)) (x : String) (p : Path) :
    (Node.dir ks).get (x :: p) = (mapGet ks x).bind (fun k => k.get p) := by
  simp only [Node.get]
  cases mapGet ks x <;> rfl

theorem Node.get_file_cons (c x : String) (p : Path) : (Node.file c).get (x :: p) = none := rfl

theorem Node.get_append (p q : Path) :
    ∀ n : Node, n.get (p ++ q) = (n.get p).bind (fun s => s.get q) := by
  induction p with
  | nil => intro n; simp [Node.get_nil]
  | cons x p ih =>
    intro n
    cases n with
    | file c => simp [Node.get_file_cons]
    | dir ks =>
      rw [List.cons_append, Node.get_dir_cons, Node.get_dir_cons]
      cases mapGet ks x with
      | none => simp
      | some k => simp [ih]

theorem Node.fileAt_dir_cons (ks : List (String × Node)) (x : String) (p : Path) :
    (Node.dir ks).fileAt (x :: p) = (mapGet ks x).bind (fun k => k.fileAt p) := by
  unfold Node.fileAt
  rw [Node.get_dir_cons]
  cases mapGet ks x <;> rfl

theorem Node.isDirAt_dir_cons (ks : List (String × Node)) (x : String) (p : Path) :
    (Node.dir ks).isDirAt (x :: p) =
      (match mapGet ks x with
        | none => false
        | some k => k.isDirAt p) := by
  unfold Node.isDirAt
  rw [Node.get_dir_cons]
  cases mapGet ks x <;> rfl

theorem Node.fileAt_dir_nil (ks : List (String × Node)) : (Node.dir ks).fileAt [] = none := rfl

theorem Node.isDirAt_dir_nil (ks : List (String × Node)) : (Node.dir ks).isDirAt [] = true := rfl

theorem Node.fileAt_file_cons (c x : String) (p : Path) :
    (Node.file c).fileAt (x :: p) = none := rfl

theorem Node.isDirAt_file (c : String) (p : Path) : (Node.file c).isDirAt p = false := by
  cases p <;> rfl

theorem Node.isDirAt_iff (fs : Node) (p : Path) :
    fs.isDirAt p = true ↔ ∃ ks, fs.get p = some (.dir ks) := by
  unfold Node.isDirAt
  cases h : fs.get p with
  | none => simp
  | some n =>
    cases n with
    | file c => simp
    | dir ks => simp

theorem Node.existsAt_eq (fs : Node) (p : Path) :
    fs.existsAt p = (fs.isDirAt p || (fs.fileAt p).isSome) := by
  unfold Node.existsAt Node.isDirAt Node.fileAt
  cases fs.get p with
  | none => rfl
  | some n => cases n <;> rfl

theorem Node.mkdirAll_dir_cons (ks : List (String × Node)) (x : String) (p : Path) :
    (Node.dir ks).mkdirAll (x :: p) =
      match ((mapGet ks x).getD (.dir [])).mkdirAll p with
      | none => none
      | some k => some (.dir (mapSet ks x k)) := rfl

theorem Node.putFile_dir_cons (ks : List (String × Node)) (x : String) (p : Path) (c : String)
    (hp : p ≠ []) :
    (Node.dir ks).putFile (x :: p) c =
      match mapGet ks x with
      | none => none
      | some k =>
        match k.putFile p c with
        | none => none
        | some k2 => some (.dir (mapSet ks x k2)) := by
  cases p with
  | nil => exact absurd rfl hp
  | cons y p => rfl

theorem Node.removeAll_dir_cons (ks : List (String × Node)) (x : String) (p : Path)
    (hp : p ≠ []) :
    (Node.dir ks).removeAll (x :: p) =
      match mapGet ks x with
      | none => .dir ks
      | some k => .dir (mapSet ks x (k.removeAll p)) := by
  cases p with
  | nil => exact absurd rfl hp
  | cons y p => rfl

/-- What `os.Create` and the writes change: the file at the path has the new
content, every other file and every directory is as before. -/
theorem Node.putFile_effect (p : Path) (c : String) :
    ∀ fs fs1 : Node, fs.putFile p c = some fs1 →
      fs1.fileAt p = some c ∧ (∀ q, q ≠ p → fs1.fileAt q = fs.fileAt q) ∧
      (∀ q, fs1.isDirAt q = fs.isDirAt q) := by
  induction p with
  | nil =>
    intro fs fs1 h
    cases fs <;> simp [Node.putFile] at h
  | cons x p ih =>
    intro fs fs1 h
    cases fs with
    | file c0 => simp [Node.putFile] at h
    | dir ks =>
      by_cases hp : p = []
      · subst hp
        have hfs1 : fs1 = .dir (mapSet ks x (.file c)) ∧
            (mapGet ks x = none ∨ ∃ c0, mapGet ks x = some (.file c0)) := by
          simp only [Node.putFile] at h
          cases hk : mapGet ks x with
          | none => simp [hk] at h; exact ⟨h.symm, Or.inl rfl⟩
          | some k =>
            cases k with
            | file c0 => simp [hk] at h; exact ⟨h.symm, Or.inr ⟨c0, rfl⟩⟩
            | dir kk => simp [hk] at h
        obtain ⟨hfs1, hold⟩ := hfs1
        subst hfs1
        refine ⟨?_, ?_, ?_⟩
        · rw [Node.fileAt_dir_cons, mapGet_mapSet]
          simp [Node.fileAt, Node.get_nil]
        · intro q hq
          cases q with
          | nil => rfl
          | cons y q =>
            rw [Node.fileAt_dir_cons, Node.fileAt_dir_cons, mapGet_mapSet]
            by_cases hy : x = y
            · subst hy
              have hq2 : q ≠ [] := fun hh => hq (by rw [hh])
              obtain ⟨z, q2, hz⟩ := List.exists_cons_of_ne_nil hq2
              subst hz
              rcases hold with h0 | ⟨c0, h0⟩
              · simp [h0, Node.fileAt_file_cons]
              · simp [h0, Node.fileAt_file_cons]
            · simp [hy]
        · intro q
          cases q with
          | nil => rfl
          | cons y q =>
            rw [Node.isDirAt_dir_cons, Node.isDirAt_dir_cons, mapGet_mapSet]
            by_cases hy : x = y
            · subst hy
              rcases hold with h0 | ⟨c0, h0⟩
              · simp [h0, Node.isDirAt_file]
              · simp [h0, Node.isDirAt_file]
            · simp [hy]
      · rw [Node.putFile_dir_cons ks x p c hp] at h
        cases hk : mapGet ks x with
        | none => simp [hk] at h
        | some k =>
          simp only [hk] at h
          cases hk2 : k.putFile p c with
          | none => simp [hk2] at h
          | some k2 =>
            simp only [hk2, Option.some.injEq] at h
            subst h
            obtain ⟨i1, i2, i3⟩ := ih k k2 hk2
            refine ⟨?_, ?_, ?_⟩
            · rw [Node.fileAt_dir_cons, mapGet_mapSet]
              simpa using i1
            · intro q hq
              cases q with
              | nil => rfl
              | cons y q =>
                rw [Node.fileAt_dir_cons, Node.fileAt_dir_cons, mapGet_mapSet]
                by_cases hy : x = y
                · subst hy
                  have hq2 : q ≠ p := fun hh => hq (by rw [hh])
                  simp [hk, i2 q hq2]
                · simp [hy]
            · intro q
              cases q with
              | nil => rfl
              | cons y q =>
                rw [Node.isDirAt_dir_cons, Node.isDirAt_dir_cons, mapGet_mapSet]
                by_cases hy : x = y
                · subst hy
                  simp [hk, i3 q]
                · simp [hy]

/-- What `os.MkdirAll` changes: every initial segment of the path is a
directory afterwards; the files and the other directories are as before. -/
theorem Node.mkdirAll_effect (p : Path) :
    ∀ fs fs1 : Node, fs.mkdirAll p = some fs1 →
      (∀ q, fs1.fileAt q = fs.fileAt q) ∧
      (∀ q, fs1.isDirAt q = (fs.isDirAt q || initOf q p)) := by
  induction p with
  | nil =>
    intro fs fs1 h
    cases fs with
    | file c0 => simp [Node.mkdirAll] at h
    | dir ks =>
      simp only [Node.mkdirAll, Option.some.injEq] at h
      subst h
      refine ⟨fun _ => rfl, ?_⟩
      intro q
      cases q with
      | nil => rfl
      | cons y q => simp [initOf]
  | cons x p ih =>
    intro fs fs1 h
    cases fs with
    | file c0 => simp [Node.mkdirAll] at h
    | dir ks =>
      rw [Node.mkdirAll_dir_cons] at h
      cases hk : ((mapGet ks x).getD (.dir [])).mkdirAll p with
      | none => simp [hk] at h
      | some k =>
        simp only [hk, Option.some.injEq] at h
        subst h
        obtain ⟨i1, i2⟩ := ih _ k hk
        refine ⟨?_, ?_⟩
        · intro q
          cases q with
          | nil => rfl
          | cons y q =>
            rw [Node.fileAt_dir_cons, Node.fileAt_dir_cons, mapGet_mapSet]
            by_cases hy : x = y
            · subst hy
              cases hg : mapGet ks x with
              | none =>
                simp only [if_true, Option.some_bind, Option.none_bind, i1 q, hg,
                  Option.getD_none]
                cases q <;> rfl
              | some k0 => simp [i1 q, hg]
            · simp [hy]
        · intro q
          cases q with
          | nil => rfl
          | cons y q =>
            rw [Node.isDirAt_dir_cons, Node.isDirAt_dir_cons, mapGet_mapSet]
            by_cases hy : x = y
            · subst hy
              cases hg : mapGet ks x with
              | none =>
                simp only [if_true, i2 q, hg, Option.getD_none, initOf, decide_True,
                  Bool.true_and, Bool.false_or]
                cases q with
                | nil => simp [initOf, Node.isDirAt_dir_nil]
                | cons z q => simp [Node.isDirAt_dir_cons, mapGet]
              | some k0 => simp [i2 q, hg, initOf]
            · have hy2 : ¬ y = x := fun hh => hy hh.symm
              simp [hy, hy2, initOf]

/-- What `os.RemoveAll` changes: nothing is left at the path and below it; the
files and directories elsewhere are as before. -/
theorem Node.removeAll_effect (p : Path) (hp : p ≠ []) :
    ∀ fs : Node,
      (∀ q, (fs.removeAll p).fileAt q = if initOf p q then none else fs.fileAt q) ∧
      (∀ q, (fs.removeAll p).isDirAt q = if initOf p q then false else fs.isDirAt q) := by
  induction p with
  | nil => exact absurd rfl hp
  | cons x p ih =>
    intro fs
    cases fs with
    | file c0 =>
      have hrm : (Node.file c0).removeAll (x :: p) = .file c0 := rfl
      rw [hrm]
      refine ⟨?_, ?_⟩
      · intro q
        cases q with
        | nil => simp [initOf]
        | cons y q => simp [Node.fileAt_file_cons]
      · intro q
        simp [Node.isDirAt_file]
    | dir ks =>
      by_cases hp2 : p = []
      · subst hp2
        have hrm : (Node.dir ks).removeAll [x] = .dir (mapDel ks x) := rfl
        rw [hrm]
        refine ⟨?_, ?_⟩
        · intro q
          cases q with
          | nil => simp [initOf, Node.fileAt_dir_nil]
          | cons y q =>
            rw [Node.fileAt_dir_cons, Node.fileAt_dir_cons, mapGet_mapDel]
            by_cases hy : x = y
            · simp [hy, initOf]
            · simp [hy, initOf]
        · intro q
          cases q with
          | nil => simp [initOf, Node.isDirAt_dir_nil]
          | cons y q =>
            rw [Node.isDirAt_dir_cons, Node.isDirAt_dir_cons, mapGet_mapDel]
            by_cases hy : x = y
            · simp [hy, initOf]
            · simp [hy, initOf]
      · rw [Node.removeAll_dir_cons ks x p hp2]
        obtain ⟨z, p2, hz⟩ := List.exists_cons_of_ne_nil hp2
        cases hk : mapGet ks x with
        | none =>
          simp only
          refine ⟨?_, ?_⟩
          · intro q
            cases q with
            | nil => simp [initOf]
            | cons y q =>
              by_cases hy : x = y
              · subst hy
                simp [Node.fileAt_dir_cons, hk]
              · simp [initOf, hy]
          · intro q
            cases q with
            | nil => simp [initOf]
            | cons y q =>
              by_cases hy : x = y
              · subst hy
                simp [Node.isDirAt_dir_cons, hk]
              · simp [initOf, hy]
        | some k =>
          simp only
          obtain ⟨i1, i2⟩ := ih hp2 k
          refine ⟨?_, ?_⟩
          · intro q
            cases q with
            | nil => simp [initOf, Node.fileAt_dir_nil]
            | cons y q =>
              rw [Node.fileAt_dir_cons, Node.fileAt_dir_cons, mapGet_mapSet]
              by_cases hy : x = y
              · subst hy
                simp [hk, i1 q, initOf]
              · simp [hy, initOf]
          · intro q
            cases q with
            | nil => simp [initOf, Node.isDirAt_dir_nil]
            | cons y q =>
              rw [Node.isDirAt_dir_cons, Node.isDirAt_dir_cons, mapGet_mapSet]
              by_cases hy : x = y
              · subst hy
                simp [hk, i2 q, initOf]
              · simp [hy, initOf]

/-! ## Lemmas on the glob -/

theorem matchName_star (x : String) : matchName "*" x = some (decide (NoSlash x)) := rfl

theorem joinPath_star (V : Path) : joinPath V ["*"] = V ++ ["*"] :=
  joinPath_one V "*" (by decide)

theorem hasMetaPath_reverse (p : Path) : hasMetaPath p.reverse = hasMetaPath p := by
  simp [hasMetaPath]

theorem hasMetaPath_star (p : List String) : hasMetaPath ("*" :: p) = true := by
  have h : hasMeta "*" = true := by decide
  simp [hasMetaPath, h]

theorem Node.kidNames_of_get (fs : Node) (d : Path) (ks : List (String × Node))
    (h : fs.get d = some (.dir ks)) : fs.kidNames d = mapKeys ks := by
  simp [Node.kidNames, h]

theorem Node.existsAt_init (fs : Node) (p q : Path) (h : fs.existsAt (p ++ q) = true) :
    fs.existsAt p = true := by
  unfold Node.existsAt at h ⊢
  rw [Node.get_append] at h
  cases hp : fs.get p with
  | none => simp [hp] at h
  | some n => rfl

theorem Node.mem_kidNames_of_exists (fs : Node) (d : Path) (c : String)
    (h : fs.existsAt (d ++ [c]) = true) : c ∈ fs.kidNames d := by
  unfold Node.existsAt at h
  rw [Node.get_append] at h
  unfold Node.kidNames
  cases hp : fs.get d with
  | none => simp [hp] at h
  | some n =>
    cases n with
    | file c0 => simp [hp, Node.get_file_cons] at h
    | dir ks =>
      simp only [hp, Option.some_bind, Node.get_dir_cons] at h
      cases hk : mapGet ks c with
      | none => simp [hk] at h
      | some k => exact (mem_mapKeys_iff ks c).mpr ⟨k, hk⟩

theorem Node.get_none_of_not_kid (fs : Node) (d : Path) (c : String) (rest : Path)
    (h : c ∉ fs.kidNames d) : fs.get (d ++ c :: rest) = none := by
  rw [Node.get_append]
  unfold Node.kidNames at h
  cases hp : fs.get d with
  | none => rfl
  | some n =>
    cases n with
    | file c0 => simp [Node.get_file_cons]
    | dir ks =>
      simp only [hp] at h
      simp only [Option.some_bind, Node.get_dir_cons]
      rw [mapGet_none_of_not_mem ks c h]
      rfl

theorem Node.mem_globDir (fs : Node) (unl : List Path) (d : Path) (pat : String) (p : Path) :
    p ∈ fs.globDir unl d pat ↔
      d ∉ unl ∧ ∃ n, n ∈ fs.kidNames d ∧ matchName pat n = some true ∧ p = d ++ [n] := by
  unfold Node.globDir Node.kidNames
  by_cases hu : d ∈ unl
  · simp [hu]
  · simp only [hu, if_false, not_false_eq_true, true_and]
    cases hg : fs.get d with
    | none => simp
    | some n =>
      cases n with
      | file c0 => simp
      | dir ks =>
        simp only [List.mem_map, List.mem_filter, decide_eq_true_eq]
        constructor
        · rintro ⟨n, ⟨h1, h2⟩, h3⟩
          exact ⟨n, h1, h2, h3.symm⟩
        · rintro ⟨n, h1, h2, h3⟩
          exact ⟨n, ⟨h1, h2⟩, h3.symm⟩

theorem snoc_inj (a b : Path) (x y : String) (h : a ++ [x] = b ++ [y]) : a = b ∧ x = y := by
  have h1 := List.append_inj' h rfl
  exact ⟨h1.1, by simpa using h1.2⟩

theorem Node.globRev_plain (fs : Node) (unl : List Path) (c : String) (rd : List String)
    (h1 : hasMetaPath (c :: rd) = false) :
    fs.globRev unl (c :: rd) =
      if fs.existsAt (rd.reverse ++ [c]) then [rd.reverse ++ [c]] else [] := by
  simp [Node.globRev, h1]

theorem Node.globRev_dir (fs : Node) (unl : List Path) (c : String) (rd : List String)
    (h1 : hasMetaPath (c :: rd) = true) (h2 : hasMetaPath rd = false) :
    fs.globRev unl (c :: rd) = fs.globDir unl rd.reverse c := by
  simp [Node.globRev, h1, h2]

theorem Node.globRev_rec (fs : Node) (unl : List Path) (c : String) (rd : List String)
    (h1 : hasMetaPath (c :: rd) = true) (h2 : hasMetaPath rd = true) :
    fs.globRev unl (c :: rd) =
      (fs.globRev unl rd).flatMap (fun d => fs.globDir unl d c) := by
  simp [Node.globRev, h1, h2]

theorem globReaches_plain (unl : List Path) (c : String) (rd : List String)
    (h1 : hasMetaPath (c :: rd) = false) : globReaches unl (c :: rd) = true := by
  simp [globReaches, h1]

theorem globReaches_dir (unl : List Path) (c : String) (rd : List String)
    (h1 : hasMetaPath (c :: rd) = true) (h2 : hasMetaPath rd = false) :
    (globReaches unl (c :: rd) = true ↔ rd.reverse ∉ unl ∧ matchName c c = some true) := by
  simp [globReaches, h1, h2]

theorem globReaches_rec (unl : List Path) (c : String) (rd : List String)
    (h1 : hasMetaPath (c :: rd) = true) (h2 : hasMetaPath rd = true) :
    (globReaches unl (c :: rd) = true ↔
      (rd.reverse ∉ unl ∧ matchName c c = some true) ∧ globReaches unl rd = true) := by
  simp [globReaches, h1, h2]

/-- Every match of a glob has as many elements as the pattern. -/
theorem Node.globRev_length (fs : Node) (unl : List Path) (R : List String) :
    ∀ p ∈ fs.globRev unl R, p.length = R.length := by
  induction R with
  | nil =>
    intro p hp
    simp only [Node.globRev, List.mem_singleton] at hp
    rw [hp]
  | cons c rd ih =>
    intro p hp
    cases h1 : hasMetaPath (c :: rd) with
    | false =>
      rw [Node.globRev_plain fs unl c rd h1] at hp
      by_cases he : fs.existsAt (rd.reverse ++ [c]) = true
      · simp only [he, if_true, List.mem_singleton] at hp
        rw [hp]
        simp
      · simp [he] at hp
    | true =>
      cases h2 : hasMetaPath rd with
      | false =>
        rw [Node.globRev_dir fs unl c rd h1 h2] at hp
        obtain ⟨_, n, _, _, hn⟩ := (Node.mem_globDir fs unl _ c p).mp hp
        rw [hn]
        simp
      | true =>
        rw [Node.globRev_rec fs unl c rd h1 h2, List.mem_flatMap] at hp
        obtain ⟨d, hd, hp2⟩ := hp
        obtain ⟨_, n, _, _, hn⟩ := (Node.mem_globDir fs unl _ c p).mp hp2
        rw [hn, List.length_append, ih d hd]
        rfl

/-- Whether the glob of a pattern returns the path spelled like the pattern
does not depend on the file system, as long as the path exists. -/
theorem Node.self_mem_globRev (fs : Node) (unl : List Path) (R : List String) :
    fs.existsAt R.reverse = true →
      (R.reverse ∈ fs.globRev unl R ↔ globReaches unl R = true) := by
  induction R with
  | nil => intro _; simp [Node.globRev, globReaches]
  | cons c rd ih =>
    intro hex
    have hex' : fs.existsAt (rd.reverse ++ [c]) = true := by simpa using hex
    have hkid := Node.mem_kidNames_of_exists fs rd.reverse c hex'
    have hexd := Node.existsAt_init fs rd.reverse [c] hex'
    rw [List.reverse_cons]
    cases h1 : hasMetaPath (c :: rd) with
    | false =>
      rw [Node.globRev_plain fs unl c rd h1, globReaches_plain unl c rd h1]
      simp [hex']
    | true =>
      cases h2 : hasMetaPath rd with
      | false =>
        rw [Node.globRev_dir fs unl c rd h1 h2, globReaches_dir unl c rd h1 h2,
          Node.mem_globDir]
        constructor
        · rintro ⟨hu, n, _, hm, hn⟩
          obtain ⟨_, hcn⟩ := snoc_inj _ _ _ _ hn
          rw [← hcn] at hm
          exact ⟨hu, hm⟩
        · rintro ⟨hu, hm⟩
          exact ⟨hu, c, hkid, hm, rfl⟩
      | true =>
        rw [Node.globRev_rec fs unl c rd h1 h2, globReaches_rec unl c rd h1 h2,
          List.mem_flatMap]
        constructor
        · rintro ⟨d, hd, hp⟩
          obtain ⟨hu, n, _, hm, hn⟩ := (Node.mem_globDir fs unl d c _).mp hp
          obtain ⟨hdd, hcn⟩ := snoc_inj _ _ _ _ hn
          rw [← hcn] at hm
          rw [← hdd] at hd hu
          exact ⟨⟨hu, hm⟩, (ih hexd).mp hd⟩
        · rintro ⟨⟨hu, hm⟩, hr⟩
          exact ⟨rd.reverse, (ih hexd).mpr hr,
            (Node.mem_globDir fs unl _ c _).mpr ⟨hu, c, hkid, hm, rfl⟩⟩

theorem globListsRoot_iff (unl : List Path) (V : Path) :
    globListsRoot unl V = true ↔
      V ∉ unl ∧ (hasMetaPath V.reverse = true → globReaches unl V.reverse = true) := by
  unfold globListsRoot
  cases h : hasMetaPath V.reverse <;> simp

/-- The entries of the directory `V` that the glob of `V/*` returns. -/
theorem Node.mem_glob_root (fs : Node) (unl : List Path) (V : Path) (x : String)
    (hex : fs.existsAt V = true) :
    V ++ [x] ∈ fs.globRev unl ("*" :: V.reverse) ↔
      globListsRoot unl V = true ∧ x ∈ fs.kidNames V ∧ NoSlash x := by
  have hstar : ∀ n, matchName "*" n = some true ↔ NoSlash n := by
    intro n
    rw [matchName_star]
    simp
  rw [globListsRoot_iff]
  cases h2 : hasMetaPath V.reverse with
  | false =>
    rw [Node.globRev_dir fs unl "*" V.reverse (hasMetaPath_star _) h2, List.reverse_reverse,
      Node.mem_globDir]
    constructor
    · rintro ⟨hu, n, hk, hm, hn⟩
      obtain ⟨_, hxn⟩ := snoc_inj _ _ _ _ hn
      rw [← hxn] at hk hm
      exact ⟨⟨hu, by simp⟩, hk, (hstar x).mp hm⟩
    · rintro ⟨⟨hu, _⟩, hk, hm⟩
      exact ⟨hu, x, hk, (hstar x).mpr hm, rfl⟩
  | true =>
    rw [Node.globRev_rec fs unl "*" V.reverse (hasMetaPath_star _) h2, List.mem_flatMap]
    have hself := Node.self_mem_globRev fs unl V.reverse (by simpa using hex)
    rw [List.reverse_reverse] at hself
    constructor
    · rintro ⟨d, hd, hp⟩
      obtain ⟨hu, n, hk, hm, hn⟩ := (Node.mem_globDir fs unl d "*" _).mp hp
      obtain ⟨hdd, hxn⟩ := snoc_inj _ _ _ _ hn
      rw [← hxn] at hk hm
      rw [← hdd] at hd hu hk
      exact ⟨⟨hu, fun _ => hself.mp hd⟩, hk, (hstar x).mp hm⟩
    · rintro ⟨⟨hu, hr⟩, hk, hm⟩
      exact ⟨V, hself.mpr (hr rfl),
        (Node.mem_globDir fs unl V "*" _).mpr ⟨hu, x, hk, (hstar x).mpr hm, rfl⟩⟩

/-- A match of the glob of `V/*` is an initial segment of a path below `V` only
when it is the entry of `V` that the path goes through. -/
theorem initOf_below (V : Path) (x : String) (rest d : Path)
    (hlen : d.length = V.length + 1) :
    initOf d (V ++ x :: rest) = true ↔ d = V ++ [x] := by
  constructor
  · intro h
    obtain ⟨r, hr⟩ := (initOf_iff d _).mp h
    have h2 : (V ++ [x]) ++ rest = d ++ r := by simpa using hr
    exact (List.append_inj h2 (by simp [hlen])).1.symm
  · intro h
    rw [h]
    exact (initOf_iff _ _).mpr ⟨rest, by simp⟩

theorem any_initOf_below (ds : List Path) (V : Path) (x : String) (rest : Path)
    (hlen : ∀ d ∈ ds, d.length = V.length + 1) :
    ds.any (fun d => initOf d (V ++ x :: rest)) = true ↔ V ++ [x] ∈ ds := by
  simp only [List.any_eq_true]
  constructor
  · rintro ⟨d, hd, hi⟩
    rw [← (initOf_below V x rest d (hlen d hd)).mp hi]
    exact hd
  · intro h
    exact ⟨V ++ [x], h, (initOf_below V x rest _ (by simp)).mpr rfl⟩

theorem any_initOf_root (ds : List Path) (V : Path)
    (hlen : ∀ d ∈ ds, d.length = V.length + 1) :
    ds.any (fun d => initOf d V) = false := by
  rw [Bool.eq_false_iff]
  intro h
  simp only [List.any_eq_true] at h
  obtain ⟨d, hd, hi⟩ := h
  have := initOf_length d V hi
  have := hlen d hd
  omega

/-! ## The effect of the wipe-and-write phase -/

theorem removeEach_effect {Root : Type} (env : Env Root) (ds : List Path) :
    ∀ fs fs1 : Node, (∀ d ∈ ds, d ≠ []) → removeEach env ds fs = (fs1, none) →
      (∀ q, fs1.fileAt q = if ds.any (fun d => initOf d q) then none else fs.fileAt q) ∧
      (∀ q, fs1.isDirAt q = if ds.any (fun d => initOf d q) then false else fs.isDirAt q) := by
  induction ds with
  | nil =>
    intro fs fs1 _ h
    simp only [removeEach, Prod.mk.injEq, and_true] at h
    subst h
    simp
  | cons d ds ih =>
    intro fs fs1 hne h
    simp only [removeEach] at h
    by_cases hf : env.removeFails d = true
    · simp [hf] at h
    · simp only [hf, Bool.false_eq_true, if_false] at h
      obtain ⟨i1, i2⟩ := ih _ fs1 (fun d1 hd1 => hne d1 (List.mem_cons_of_mem _ hd1)) h
      obtain ⟨r1, r2⟩ := Node.removeAll_effect d (hne d (List.mem_cons_self _ _)) fs
      refine ⟨?_, ?_⟩
      · intro q
        rw [i1 q, r1 q, List.any_cons]
        cases initOf d q <;> cases ds.any (fun d => initOf d q) <;> simp
      · intro q
        rw [i2 q, r2 q, List.any_cons]
        cases initOf d q <;> cases ds.any (fun d => initOf d q) <;> simp

theorem removeEach_flags {Root : Type} (env : Env Root) (ds : List Path) :
    ∀ fs fs1 : Node, removeEach env ds fs = (fs1, none) →
      ∀ d ∈ ds, env.removeFails d = false := by
  induction ds with
  | nil => intro _ _ _ d hd; simp at hd
  | cons d0 ds ih =>
    intro fs fs1 h d hd
    simp only [removeEach] at h
    by_cases hf : env.removeFails d0 = true
    · simp [hf] at h
    · simp only [hf, Bool.false_eq_true, if_false] at h
      rcases List.mem_cons.mp hd with heq | hin
      · subst heq
        simpa using hf
      · exact ih _ fs1 h d hin

/-- A wipe that returns no error had a glob that returned its matches, each with
one element more than the source root, and removed them all. -/
theorem deleteOld_effect {Root : Type} (env : Env Root) (unl : List Path) (V : Path)
    (fs fs1 : Node) (h : deleteOld env unl V fs = (fs1, none)) :
    fs.glob unl (joinPath V ["*"]) = some (fs.globRev unl ("*" :: V.reverse)) ∧
    (∀ d ∈ fs.globRev unl ("*" :: V.reverse), env.removeFails d = false) ∧
    (∀ q, fs1.fileAt q =
      if (fs.globRev unl ("*" :: V.reverse)).any (fun d => initOf d q) then none
      else fs.fileAt q) ∧
    (∀ q, fs1.isDirAt q =
      if (fs.globRev unl ("*" :: V.reverse)).any (fun d => initOf d q) then false
      else fs.isDirAt q) := by
  unfold deleteOld at h
  have hg : fs.glob unl (joinPath V ["*"]) = none ∨
      fs.glob unl (joinPath V ["*"]) = some (fs.globRev unl ("*" :: V.reverse)) := by
    rw [joinPath_star]
    unfold Node.glob
    by_cases hb : (V ++ ["*"]).any (fun c => (matchName c "").isNone) = true
    · left
      simp [hb]
    · right
      simp [hb]
  rcases hg with hg | hg
  · simp [hg] at h
  · simp only [hg] at h
    have hne : ∀ d ∈ fs.globRev unl ("*" :: V.reverse), d ≠ [] := by
      intro d hd hnil
      have := Node.globRev_length fs unl _ d hd
      rw [hnil] at this
      simp at this
    obtain ⟨e1, e2⟩ := removeEach_effect env _ fs fs1 hne h
    exact ⟨hg, removeEach_flags env _ fs fs1 h, e1, e2⟩

theorem writeCve_effect {Root : Type} (env : Env Root) (V : Path) (ver cve : String)
    (defs : List Definition) (fs fs1 : Node) (hv : PlainName ver) (hc : NoSlash cve)
    (h : writeCve env V ver cve defs fs = (fs1, none)) :
    fs1.fileAt (V ++ [ver, cve ++ ".json"]) = some (env.encode defs) ∧
    (∀ q, q ≠ V ++ [ver, cve ++ ".json"] → fs1.fileAt q = fs.fileAt q) ∧
    (∀ q, fs1.isDirAt q = fs.isDirAt q) := by
  unfold writeCve at h
  simp only [joinPath_file V ver cve hv hc] at h
  by_cases h1 : env.createFails (V ++ [ver, cve ++ ".json"]) = true
  · simp [h1] at h
  · simp only [h1] at h
    cases hp1 : fs.putFile (V ++ [ver, cve ++ ".json"]) "" with
    | none => simp [hp1] at h
    | some fsa =>
      simp only [hp1] at h
      by_cases h2 : env.encodeFails (V ++ [ver, cve ++ ".json"]) = true
      · simp [h2] at h
      · simp only [h2] at h
        cases hp2 : fsa.putFile (V ++ [ver, cve ++ ".json"]) (env.encode defs) with
        | none => simp [hp2] at h
        | some fsb =>
          simp only [hp2] at h
          by_cases h3 : env.closeFails (V ++ [ver, cve ++ ".json"]) = true
          · simp [h3] at h
          · simp only [h3, Bool.false_eq_true, if_false, Prod.mk.injEq, and_true] at h
            subst h
            obtain ⟨_, a2, a3⟩ := Node.putFile_effect _ _ fs fsa hp1
            obtain ⟨b1, b2, b3⟩ := Node.putFile_effect _ _ fsa fsb hp2
            refine ⟨b1, ?_, ?_⟩
            · intro q hq
              rw [b2 q hq, a2 q hq]
            · intro q
              rw [b3 q, a3 q]

theorem writeCve_flags {Root : Type} (env : Env Root) (V : Path) (ver cve : String)
    (defs : List Definition) (fs fs1 : Node)
    (h : writeCve env V ver cve defs fs = (fs1, none)) :
    env.createFails (joinPath V [ver, cve ++ ".json"]) = false ∧
    env.encodeFails (joinPath V [ver, cve ++ ".json"]) = false ∧
    env.closeFails (joinPath V [ver, cve ++ ".json"]) = false := by
  unfold writeCve at h
  by_cases h1 : env.createFails (joinPath V [ver, cve ++ ".json"]) = true
  · simp [h1] at h
  · simp only [h1] at h
    cases hp1 : fs.putFile (joinPath V [ver, cve ++ ".json"]) "" with
    | none => simp [hp1] at h
    | some fsa =>
      simp only [hp1] at h
      by_cases h2 : env.encodeFails (joinPath V [ver, cve ++ ".json"]) = true
      · simp [h2] at h
      · simp only [h2] at h
        cases hp2 : fsa.putFile (joinPath V [ver, cve ++ ".json"]) (env.encode defs) with
        | none => simp [hp2] at h
        | some fsb =>
          simp only [hp2] at h
          by_cases h3 : env.closeFails (joinPath V [ver, cve ++ ".json"]) = true
          · simp [h3] at h
          · exact ⟨by simpa using h1, by simpa using h2, by simpa using h3⟩

theorem file_path_inj (V : Path) (v1 c1 v2 c2 : String)
    (h : V ++ [v1, c1 ++ ".json"] = V ++ [v2, c2 ++ ".json"]) : v1 = v2 ∧ c1 = c2 := by
  have h1 := List.append_cancel_left h
  simp only [List.cons.injEq, and_true] at h1
  exact ⟨h1.1, jsonName_injective _ _ h1.2⟩

theorem rangeCveFiles_effect {Root : Type} (env : Env Root) (V : Path) (ver : String)
    (hv : PlainName ver) (items : List (String × List Definition)) :
    ∀ fs fs1 : Node, (∀ e ∈ items, NoSlash e.1) → (mapKeys items).Nodup →
      rangeCveFiles env V ver items fs = (fs1, none) →
      (∀ e ∈ items, fs1.fileAt (V ++ [ver, e.1 ++ ".json"]) = some (env.encode e.2)) ∧
      (∀ q, (∀ e ∈ items, q ≠ V ++ [ver, e.1 ++ ".json"]) → fs1.fileAt q = fs.fileAt q) ∧
      (∀ q, fs1.isDirAt q = fs.isDirAt q) := by
  induction items with
  | nil =>
    intro fs fs1 _ _ h
    simp only [rangeCveFiles, Prod.mk.injEq, and_true] at h
    subst h
    simp
  | cons e items ih =>
    intro fs fs1 hns hnd h
    obtain ⟨cve, defs⟩ := e
    simp only [rangeCveFiles] at h
    cases hw : writeCve env V ver cve defs fs with
    | mk fsa err =>
      cases err with
      | some e => simp [hw] at h
      | none =>
        simp only [hw] at h
        have hc : NoSlash cve := hns (cve, defs) (List.mem_cons_self _ _)
        obtain ⟨w1, w2, w3⟩ := writeCve_effect env V ver cve defs fs fsa hv hc hw
        simp only [mapKeys, List.map_cons, List.nodup_cons] at hnd
        obtain ⟨i1, i2, i3⟩ := ih fsa fs1
          (fun e he => hns e (List.mem_cons_of_mem _ he)) hnd.2 h
        refine ⟨?_, ?_, ?_⟩
        · intro e he
          rcases List.mem_cons.mp he with heq | hin
          · subst heq
            rw [i2 _ ?_, w1]
            intro e2 he2 heq2
            have := (file_path_inj V _ _ _ _ heq2).2
            apply hnd.1
            simp only at this
            rw [this]
            exact List.mem_map_of_mem Prod.fst he2
          · exact i1 e hin
        · intro q hq
          rw [i2 q (fun e he => hq e (List.mem_cons_of_mem _ he)),
            w2 q (hq (cve, defs) (List.mem_cons_self _ _))]
        · intro q
          rw [i3 q, w3 q]

theorem rangeCveFiles_flags {Root : Type} (env : Env Root) (V : Path) (ver : String)
    (items : List (String × List Definition)) :
    ∀ fs fs1 : Node, rangeCveFiles env V ver items fs = (fs1, none) →
      ∀ f ∈ items,
        env.createFails (joinPath V [ver, f.1 ++ ".json"]) = false ∧
        env.encodeFails (joinPath V [ver, f.1 ++ ".json"]) = false ∧
        env.closeFails (joinPath V [ver, f.1 ++ ".json"]) = false := by
  induction items with
  | nil => intro _ _ _ f hf; simp at hf
  | cons e items ih =>
    intro fs fs1 h f hf
    obtain ⟨cve, defs⟩ := e
    simp only [rangeCveFiles] at h
    cases hw : writeCve env V ver cve defs fs with
    | mk fsa err =>
      cases err with
      | some e => simp [hw] at h
      | none =>
        simp only [hw] at h
        rcases List.mem_cons.mp hf with heq | hin
        · subst heq
          exact writeCve_flags env V ver cve defs fs fsa hw
        · exact ih fsa fs1 h f hin

theorem rangeVerDirs_effect {Root : Type} (env : Env Root) (V : Path) (o : VerDefsMap) :
    ∀ fs fs1 : Node,
      (∀ e ∈ o, PlainName e.1 ∧ ∀ f ∈ env.orderCves e.2, NoSlash f.1) →
      (mapKeys o).Nodup →
      (∀ e ∈ o, (mapKeys (env.orderCves e.2)).Nodup) →
      rangeVerDirs env V o fs = (fs1, none) →
      (∀ e ∈ o, ∀ f ∈ env.orderCves e.2,
        fs1.fileAt (V ++ [e.1, f.1 ++ ".json"]) = some (env.encode f.2)) ∧
      (∀ q, (∀ e ∈ o, ∀ f ∈ env.orderCves e.2, q ≠ V ++ [e.1, f.1 ++ ".json"]) →
        fs1.fileAt q = fs.fileAt q) ∧
      (∀ q, fs1.isDirAt q = (fs.isDirAt q || o.any (fun e => initOf q (V ++ [e.1])))) := by
  induction o with
  | nil =>
    intro fs fs1 _ _ _ h
    simp only [rangeVerDirs, Prod.mk.injEq, and_true] at h
    subst h
    simp
  | cons e o ih =>
    intro fs fs1 hplain hnd hnd2 h
    obtain ⟨ver, inner⟩ := e
    have hv : PlainName ver := (hplain (ver, inner) (List.mem_cons_self _ _)).1
    simp only [rangeVerDirs, joinPath_one V ver hv] at h
    by_cases hm : env.mkdirFails (V ++ [ver]) = true
    · simp [hm] at h
    · simp only [hm] at h
      cases hmk : fs.mkdirAll (V ++ [ver]) with
      | none => simp [hmk] at h
      | some fsa =>
        simp only [hmk] at h
        obtain ⟨m1, m2⟩ := Node.mkdirAll_effect _ fs fsa hmk
        cases hr : rangeCveFiles env V ver (env.orderCves inner) fsa with
        | mk fsb err =>
          cases err with
          | some e => simp [hr] at h
          | none =>
            simp only [hr] at h
            obtain ⟨c1, c2, c3⟩ := rangeCveFiles_effect env V ver hv _ fsa fsb
              (hplain (ver, inner) (List.mem_cons_self _ _)).2
              (hnd2 (ver, inner) (List.mem_cons_self _ _)) hr
            simp only [mapKeys, List.map_cons, List.nodup_cons] at hnd
            obtain ⟨i1, i2, i3⟩ := ih fsb fs1
              (fun e he => hplain e (List.mem_cons_of_mem _ he)) hnd.2
              (fun e he => hnd2 e (List.mem_cons_of_mem _ he)) h
            refine ⟨?_, ?_, ?_⟩
            · intro e he f hf
              rcases List.mem_cons.mp he with heq | hin
              · subst heq
                rw [i2 _ ?_, c1 f hf]
                intro e2 he2 f2 _ heq2
                have := (file_path_inj V _ _ _ _ heq2).1
                apply hnd.1
                simp only at this
                rw [this]
                exact List.mem_map_of_mem Prod.fst he2
              · exact i1 e hin f hf
            · intro q hq
              rw [i2 q (fun e he => hq e (List.mem_cons_of_mem _ he)),
                c2 q (hq (ver, inner) (List.mem_cons_self _ _)), m1 q]
            · intro q
              rw [i3 q, c3 q, m2 q, List.any_cons, Bool.or_assoc]

theorem rangeVerDirs_flags {Root : Type} (env : Env Root) (V : Path) (o : VerDefsMap) :
    ∀ fs fs1 : Node, rangeVerDirs env V o fs = (fs1, none) →
      ∀ e ∈ o,
        env.mkdirFails (joinPath V [e.1]) = false ∧
        ∀ f ∈ env.orderCves e.2,
          env.createFails (joinPath V [e.1, f.1 ++ ".json"]) = false ∧
          env.encodeFails (joinPath V [e.1, f.1 ++ ".json"]) = false ∧
          env.closeFails (joinPath V [e.1, f.1 ++ ".json"]) = false := by
  induction o with
  | nil => intro _ _ _ e he; simp at he
  | cons e0 o ih =>
    intro fs fs1 h e he
    obtain ⟨ver, inner⟩ := e0
    simp only [rangeVerDirs] at h
    by_cases hm : env.mkdirFails (joinPath V [ver]) = true
    · simp [hm] at h
    · simp only [hm] at h
      cases hmk : fs.mkdirAll (joinPath V [ver]) with
      | none => simp [hmk] at h
      | some fsa =>
        simp only [hmk] at h
        cases hr : rangeCveFiles env V ver (env.orderCves inner) fsa with
        | mk fsb err =>
          cases err with
          | some e => simp [hr] at h
          | none =>
            simp only [hr] at h
            rcases List.mem_cons.mp he with heq | hin
            · subst heq
              exact ⟨by simpa using hm, rangeCveFiles_flags env V ver _ fsa fsb hr⟩
            · exact ih fsb fs1 h e hin

theorem store_flags {Root : Type} (env : Env Root) (unl : List Path) (V : Path)
    (m : VerDefsMap) (fs fs1 : Node) (h : store env unl V m fs = (fs1, none)) :
    StoreCallsSucceed env unl V m fs := by
  unfold store at h
  cases hd : deleteOld env unl V fs with
  | mk fsa err =>
    cases err with
    | some e => simp [hd] at h
    | none =>
      simp only [hd] at h
      obtain ⟨g1, g2, _, _⟩ := deleteOld_effect env unl V fs fsa hd
      exact ⟨⟨_, g1, g2⟩, rangeVerDirs_flags env V _ fsa fs1 h⟩

theorem mapGet_perm {V : Type} (a b : List (String × V)) (hp : a.Perm b)
    (hnd : (mapKeys b).Nodup) (x : String) : mapGet a x = mapGet b x := by
  have hnda : (mapKeys a).Nodup := ((hp.map Prod.fst).nodup_iff).mpr hnd
  cases ha : mapGet a x with
  | none =>
    cases hb : mapGet b x with
    | none => rfl
    | some v =>
      have h1 := mem_of_mapGet b x v hb
      have h2 := mapGet_of_mem a hnda x v (hp.mem_iff.mpr h1)
      rw [ha] at h2
      cases h2
  | some v =>
    have h1 := mem_of_mapGet a x v ha
    exact (mapGet_of_mem b hnd x v (hp.mem_iff.mp h1)).symm

/-- What a wipe-and-write phase that returns no error leaves, for a corpus with
plain names: every file of the corpus holds the encoding of its list; every
other file is gone when it lay at or below a match of the glob and is as before
otherwise; the directories are those that were not removed, the version
directories and the directories above them. -/
theorem store_effect {Root : Type} (env : Env Root) (unl : List Path) (V : Path)
    (m : VerDefsMap) (fs fs1 : Node)
    (hnd : (mapKeys m).Nodup) (hnd2 : ∀ e ∈ m, (mapKeys e.2).Nodup)
    (hplain : ∀ e ∈ m, PlainName e.1 ∧ ∀ f ∈ e.2, NoSlash f.1)
    (hperm1 : (env.orderVers m).Perm m) (hperm2 : ∀ e ∈ m, (env.orderCves e.2).Perm e.2)
    (hok : store env unl V m fs = (fs1, none)) :
    (∀ ver inner cve defs, mapGet m ver = some inner → mapGet inner cve = some defs →
      fs1.fileAt (V ++ [ver, cve ++ ".json"]) = some (env.encode defs)) ∧
    (∀ q, (∀ ver inner cve, mapGet m ver = some inner → cve ∈ mapKeys inner →
        q ≠ V ++ [ver, cve ++ ".json"]) →
      fs1.fileAt q =
        if (fs.globRev unl ("*" :: V.reverse)).any (fun d => initOf d q) then none
        else fs.fileAt q) ∧
    (∀ q, fs1.isDirAt q =
      ((if (fs.globRev unl ("*" :: V.reverse)).any (fun d => initOf d q) then false
        else fs.isDirAt q) || (mapKeys m).any (fun ver => initOf q (V ++ [ver])))) := by
  unfold store at hok
  cases hd : deleteOld env unl V fs with
  | mk fsa err =>
    cases err with
    | some e => simp [hd] at hok
    | none =>
      simp only [hd] at hok
      obtain ⟨_, _, d1, d2⟩ := deleteOld_effect env unl V fs fsa hd
      obtain ⟨w1, w2, w3⟩ := rangeVerDirs_effect env V (env.orderVers m) fsa fs1
        (by
          intro e he
          have hem := hperm1.mem_iff.mp he
          refine ⟨(hplain e hem).1, ?_⟩
          intro f hf
          exact (hplain e hem).2 f ((hperm2 e hem).mem_iff.mp hf))
        (((hperm1.map Prod.fst).nodup_iff).mpr hnd)
        (by
          intro e he
          have hem := hperm1.mem_iff.mp he
          exact ((((hperm2 e hem).map Prod.fst).nodup_iff).mpr (hnd2 e hem)))
        hok
      refine ⟨?_, ?_, ?_⟩
      · intro ver inner cve defs h1 h2
        have hm1 := mem_of_mapGet m ver inner h1
        have hm2 := mem_of_mapGet inner cve defs h2
        exact w1 (ver, inner) (hperm1.mem_iff.mpr hm1) (cve, defs)
          ((hperm2 _ hm1).mem_iff.mpr hm2)
      · intro q hq
        rw [w2 q ?_, d1 q]
        intro e he f hf
        have hem := hperm1.mem_iff.mp he
        have hfm := (hperm2 e hem).mem_iff.mp hf
        exact hq e.1 e.2 f.1 (mapGet_of_mem m hnd e.1 e.2 hem)
          (List.mem_map_of_mem Prod.fst hfm)
      · intro q
        rw [w3 q, d2 q]
        congr 1
        rw [Bool.eq_iff_iff]
        simp only [List.any_eq_true]
        constructor
        · rintro ⟨e, he, hi⟩
          exact ⟨e.1, List.mem_map_of_mem Prod.fst (hperm1.mem_iff.mp he), hi⟩
        · rintro ⟨ver, hv, hi⟩
          obtain ⟨inner, hin⟩ := (mem_mapKeys_iff m ver).mp hv
          exact ⟨(ver, inner), hperm1.mem_iff.mpr (mem_of_mapGet m ver inner hin), hi⟩

/-! ## The Directory Store -/

theorem Node.fileAt_of_get_none (fs : Node) (p : Path) (h : fs.get p = none) :
    fs.fileAt p = none := by
  unfold Node.fileAt
  rw [h]

theorem Node.isDirAt_of_get_none (fs : Node) (p : Path) (h : fs.get p = none) :
    fs.isDirAt p = false := by
  unfold Node.isDirAt
  rw [h]

theorem Node.fileAt_of_isDirAt (fs : Node) (p : Path) (h : fs.isDirAt p = true) :
    fs.fileAt p = none := by
  obtain ⟨ks, hk⟩ := (Node.isDirAt_iff fs p).mp h
  unfold Node.fileAt
  rw [hk]

theorem Node.existsAt_of_isDirAt (fs : Node) (p : Path) (h : fs.isDirAt p = true) :
    fs.existsAt p = true := by
  rw [Node.existsAt_eq, h]
  rfl

theorem Node.existsAt_cases (fs : Node) (p : Path) (h : fs.existsAt p = true) :
    fs.isDirAt p = true ∨ ∃ c, fs.fileAt p = some c := by
  rw [Node.existsAt_eq] at h
  cases hd : fs.isDirAt p with
  | true => exact Or.inl rfl
  | false =>
    rw [hd] at h
    cases hf : fs.fileAt p with
    | none => rw [hf] at h; cases h
    | some c => exact Or.inr ⟨c, rfl⟩

theorem globRev_root_length (fs : Node) (unl : List Path) (V : Path) :
    ∀ d ∈ fs.globRev unl ("*" :: V.reverse), d.length = V.length + 1 := by
  intro d hd
  have := Node.globRev_length fs unl _ d hd
  simpa using this

theorem globListsRoot_plain (unl : List Path) (V : Path) (hmeta : hasMetaPath V = false)
    (hlist : V ∉ unl) : globListsRoot unl V = true := by
  rw [globListsRoot_iff]
  refine ⟨hlist, ?_⟩
  intro h
  rw [hasMetaPath_reverse, hmeta] at h
  cases h

/-- Whether a path below the source root lies at or below a match of the glob:
exactly when the glob lists the root and the first element below the root is an
entry of the root without a separator. -/
theorem glob_hit_iff (fs : Node) (unl : List Path) (V : Path) (x : String) (rest : Path)
    (hex : fs.existsAt V = true) :
    (fs.globRev unl ("*" :: V.reverse)).any (fun d => initOf d (V ++ x :: rest)) = true ↔
      globListsRoot unl V = true ∧ x ∈ fs.kidNames V ∧ NoSlash x := by
  rw [any_initOf_below _ V x rest (globRev_root_length fs unl V)]
  exact Node.mem_glob_root fs unl V x hex

/-- On a source root that the glob lists, nothing that was below the root and is
not a file of the corpus is a regular file afterwards. -/
theorem wiped_file_none (fs : Node) (unl : List Path) (V q : Path)
    (hdir : fs.isDirAt V = true) (hglr : globListsRoot unl V = true)
    (hnames : ∀ x ∈ fs.kidNames V, NoSlash x) :
    (if (fs.globRev unl ("*" :: V.reverse)).any (fun d => initOf d (V ++ q)) then none
      else fs.fileAt (V ++ q)) = none := by
  cases q with
  | nil =>
    rw [List.append_nil, any_initOf_root _ V (globRev_root_length fs unl V)]
    simpa using Node.fileAt_of_isDirAt fs V hdir
  | cons x rest =>
    by_cases hx : x ∈ fs.kidNames V
    · rw [(glob_hit_iff fs unl V x rest (Node.existsAt_of_isDirAt fs V hdir)).mpr
        ⟨hglr, hx, hnames x hx⟩]
      rfl
    · rw [Node.fileAt_of_get_none fs _ (Node.get_none_of_not_kid fs V x rest hx)]
      simp

theorem wiped_dir_false (fs : Node) (unl : List Path) (V : Path) (x : String) (rest : Path)
    (hdir : fs.isDirAt V = true) (hglr : globListsRoot unl V = true)
    (hnames : ∀ x ∈ fs.kidNames V, NoSlash x) :
    (if (fs.globRev unl ("*" :: V.reverse)).any (fun d => initOf d (V ++ x :: rest)) then false
      else fs.isDirAt (V ++ x :: rest)) = false := by
  by_cases hx : x ∈ fs.kidNames V
  · rw [(glob_hit_iff fs unl V x rest (Node.existsAt_of_isDirAt fs V hdir)).mpr
      ⟨hglr, hx, hnames x hx⟩]
    rfl
  · rw [Node.isDirAt_of_get_none fs _ (Node.get_none_of_not_kid fs V x rest hx)]
    simp

theorem initOf_version (V q : Path) (ver : String) :
    initOf (V ++ q) (V ++ [ver]) = true ↔ q = [] ∨ q = [ver] := by
  rw [initOf_iff]
  constructor
  · rintro ⟨rest, hr⟩
    rw [List.append_assoc] at hr
    have h := List.append_cancel_left hr
    cases q with
    | nil => exact Or.inl rfl
    | cons a q =>
      right
      simp only [List.cons_append, List.cons.injEq] at h
      obtain ⟨h1, h2⟩ := h
      have h3 : q = [] := by
        cases q with
        | nil => rfl
        | cons b q => simp at h2
      rw [h1, h3]
  · rintro (h | h)
    · exact ⟨[ver], by rw [h, List.append_nil]⟩
    · exact ⟨[], by rw [h, List.append_nil]⟩

/-- The regular files a wipe-and-write phase that returns no error leaves below
a source root that the glob lists. -/
theorem store_files {Root : Type} (env : Env Root) (unl : List Path) (V : Path)
    (m : VerDefsMap) (fs fs1 : Node)
    (hdir : fs.isDirAt V = true) (hglr : globListsRoot unl V = true)
    (hnames : ∀ x ∈ fs.kidNames V, NoSlash x)
    (hnd : (mapKeys m).Nodup) (hnd2 : ∀ e ∈ m, (mapKeys e.2).Nodup)
    (hplain : ∀ e ∈ m, PlainName e.1 ∧ ∀ f ∈ e.2, NoSlash f.1)
    (hperm1 : (env.orderVers m).Perm m) (hperm2 : ∀ e ∈ m, (env.orderCves e.2).Perm e.2)
    (hok : store env unl V m fs = (fs1, none)) (q : Path) (c : String) :
    fs1.fileAt (V ++ q) = some c ↔
      ∃ ver inner cve defs, mapGet m ver = some inner ∧ mapGet inner cve = some defs ∧
        q = [ver, cve ++ ".json"] ∧ c = env.encode defs := by
  obtain ⟨e1, e2, _⟩ := store_effect env unl V m fs fs1 hnd hnd2 hplain hperm1 hperm2 hok
  by_cases hc : ∃ ver inner cve, mapGet m ver = some inner ∧ cve ∈ mapKeys inner ∧
      q = [ver, cve ++ ".json"]
  · obtain ⟨ver, inner, cve, h1, h2, h3⟩ := hc
    obtain ⟨defs, hd⟩ := (mem_mapKeys_iff inner cve).mp h2
    subst h3
    rw [e1 ver inner cve defs h1 hd]
    constructor
    · intro h
      simp only [Option.some.injEq] at h
      exact ⟨ver, inner, cve, defs, h1, hd, rfl, h.symm⟩
    · rintro ⟨ver2, inner2, cve2, defs2, g1, g2, g3, g4⟩
      simp only [List.cons.injEq, and_true] at g3
      obtain ⟨g5, g6⟩ := g3
      have g7 := jsonName_injective _ _ g6
      subst g5
      subst g7
      rw [h1] at g1
      simp only [Option.some.injEq] at g1
      subst g1
      rw [hd] at g2
      simp only [Option.some.injEq] at g2
      rw [g4, g2]
  · have hnone : fs1.fileAt (V ++ q) = none := by
      rw [e2 (V ++ q) ?_]
      · exact wiped_file_none fs unl V q hdir hglr hnames
      · intro ver inner cve h1 h2 heq
        exact hc ⟨ver, inner, cve, h1, h2, List.append_cancel_left heq⟩
    rw [hnone]
    constructor
    · intro h
      cases h
    · rintro ⟨ver, inner, cve, defs, h1, h2, h3, _⟩
      exact absurd ⟨ver, inner, cve, h1, (mem_mapKeys_iff inner cve).mpr ⟨defs, h2⟩, h3⟩ hc

/-- The directories a wipe-and-write phase that returns no error leaves at and
below a source root that the glob lists. -/
theorem store_dirs {Root : Type} (env : Env Root) (unl : List Path) (V : Path)
    (m : VerDefsMap) (fs fs1 : Node)
    (hdir : fs.isDirAt V = true) (hglr : globListsRoot unl V = true)
    (hnames : ∀ x ∈ fs.kidNames V, NoSlash x)
    (hnd : (mapKeys m).Nodup) (hnd2 : ∀ e ∈ m, (mapKeys e.2).Nodup)
    (hplain : ∀ e ∈ m, PlainName e.1 ∧ ∀ f ∈ e.2, NoSlash f.1)
    (hperm1 : (env.orderVers m).Perm m) (hperm2 : ∀ e ∈ m, (env.orderCves e.2).Perm e.2)
    (hok : store env unl V m fs = (fs1, none)) (q : Path) :
    fs1.isDirAt (V ++ q) = true ↔ q = [] ∨ ∃ ver, ver ∈ mapKeys m ∧ q = [ver] := by
  obtain ⟨_, _, e3⟩ := store_effect env unl V m fs fs1 hnd hnd2 hplain hperm1 hperm2 hok
  rw [e3 (V ++ q)]
  cases q with
  | nil =>
    rw [List.append_nil, any_initOf_root _ V (globRev_root_length fs unl V)]
    simp [hdir]
  | cons x rest =>
    rw [wiped_dir_false fs unl V x rest hdir hglr hnames, Bool.false_or, List.any_eq_true]
    constructor
    · rintro ⟨ver, hv, hi⟩
      rcases (initOf_version V (x :: rest) ver).mp hi with h | h
      · cases h
      · exact Or.inr ⟨ver, hv, h⟩
    · rintro (h | ⟨ver, hv, h⟩)
      · cases h
      · exact ⟨ver, hv, (initOf_version V (x :: rest) ver).mpr (Or.inr h)⟩

/-- The wipe is exact where the glob lists the source root. Let the source root
`V` be a directory whose path holds none of the pattern characters, which the
glob can list and whose entries have names without a separator, and let the
corpus be a Go map (distinct keys) whose version keys are plain path-component
names and whose CVE identifiers contain no separator. If the wipe-and-write
phase returns without error, then, whatever order the maps were visited in, the
regular files below the source root are exactly the files
`<version>/<cveID>.json` of the pairs of the corpus, each holding the encoding
of its list; the directories are the source root and one directory per version
key; and nothing else exists below the source root. -/
theorem store_exact_on_listed_root {Root : Type} (env : Env Root) (unl : List Path)
    (V : Path) (m : VerDefsMap) (fs fs1 : Node)
    (hdir : fs.isDirAt V = true)
    (hmeta : hasMetaPath V = false) (hlist : V ∉ unl)
    (hnames : ∀ x ∈ fs.kidNames V, NoSlash x)
    (hnd : (mapKeys m).Nodup) (hnd2 : ∀ e ∈ m, (mapKeys e.2).Nodup)
    (hplain : ∀ e ∈ m, PlainName e.1 ∧ ∀ f ∈ e.2, NoSlash f.1)
    (hperm1 : (env.orderVers m).Perm m) (hperm2 : ∀ e ∈ m, (env.orderCves e.2).Perm e.2)
    (hok : store env unl V m fs = (fs1, none)) (q : Path) :
    (∀ c, fs1.fileAt (V ++ q) = some c ↔
      ∃ ver inner cve defs, mapGet m ver = some inner ∧ mapGet inner cve = some defs ∧
        q = [ver, cve ++ ".json"] ∧ c = env.encode defs) ∧
    (fs1.isDirAt (V ++ q) = true ↔ q = [] ∨ ∃ ver, ver ∈ mapKeys m ∧ q = [ver]) ∧
    (fs1.existsAt (V ++ q) = true →
      q = [] ∨ (∃ ver, ver ∈ mapKeys m ∧ q = [ver]) ∨
      ∃ ver inner cve, mapGet m ver = some inner ∧ cve ∈ mapKeys inner ∧
        q = [ver, cve ++ ".json"]) := by
  have hglr := globListsRoot_plain unl V hmeta hlist
  have hfile := store_files env unl V m fs fs1 hdir hglr hnames hnd hnd2 hplain hperm1 hperm2
    hok q
  have hdirs := store_dirs env unl V m fs fs1 hdir hglr hnames hnd hnd2 hplain hperm1 hperm2
    hok q
  refine ⟨hfile, hdirs, ?_⟩
  intro hex
  rcases Node.existsAt_cases fs1 (V ++ q) hex with h | ⟨c, h⟩
  · rcases hdirs.mp h with h1 | h1
    · exact Or.inl h1
    · exact Or.inr (Or.inl h1)
  · obtain ⟨ver, inner, cve, defs, h1, h2, h3, _⟩ := (hfile c).mp h
    exact Or.inr (Or.inr ⟨ver, inner, cve, h1, (mem_mapKeys_iff inner cve).mpr ⟨defs, h2⟩, h3⟩)

/-- Storing the sample corpus over the old content of the source root `vuln/redhat`
wipes the old file and leaves the file of CVE-2020-1 under version 6. -/
theorem store_exact_on_listed_root_sample :
    (store sampleEnv [] ["vuln", "redhat"] sampleCorpus sampleOldFs).1.fileAt
        (["vuln", "redhat"] ++ ["6", "CVE-2020-1" ++ ".json"]) =
      some (sampleEnv.encode [rekey (sampleDef "RHSA-1" ["CVE-2020-1"]) ⟨"CVE-2020-1", "cvss"⟩]) :=
  ((store_exact_on_listed_root sampleEnv [] ["vuln", "redhat"] sampleCorpus sampleOldFs
    (store sampleEnv [] ["vuln", "redhat"] sampleCorpus sampleOldFs).1
    (by decide) (by decide) (by decide) (by decide) (by decide) (by decide) (by decide)
    (List.Perm.refl _) (fun _ _ => List.Perm.refl _) rfl ["6", "CVE-2020-1" ++ ".json"]).1 _).mpr
    ⟨"6", _, "CVE-2020-1", _, rfl, rfl, rfl, rfl⟩

/-- C6. The wipe misses a source root whose path holds a pattern character. The
configured directory is `v[u]ln`; the source root `v[u]ln/redhat` is a directory
holding `6/CVE-0000-0000.json` and the directory `5`; the corpus has the one
pair (6, CVE-2020-1), with plain names. The wipe-and-write phase returns no
error and writes the file of the pair, and afterwards the file
`6/CVE-0000-0000.json`, which is of no pair of the corpus, is still there with
its old content, and so is the directory `5`, which is of no version key. -/
theorem wipe_misses_pattern_root :
    samplePatternFs.isDirAt ["v[u]ln", "redhat"] = true ∧
    (∀ e ∈ sampleCorpus, PlainName e.1 ∧ ∀ f ∈ e.2, PlainName f.1) ∧
    (store sampleEnv [] ["v[u]ln", "redhat"] sampleCorpus samplePatternFs).2 = none ∧
    (store sampleEnv [] ["v[u]ln", "redhat"] sampleCorpus samplePatternFs).1.fileAt
        ["v[u]ln", "redhat", "6", "CVE-2020-1.json"] =
      some (sampleEnv.encode [rekey (sampleDef "RHSA-1" ["CVE-2020-1"]) ⟨"CVE-2020-1", "cvss"⟩]) ∧
    corpusAt sampleCorpus "6" "CVE-0000-0000" = [] ∧
    (store sampleEnv [] ["v[u]ln", "redhat"] sampleCorpus samplePatternFs).1.fileAt
        ["v[u]ln", "redhat", "6", "CVE-0000-0000.json"] = some "old" ∧
    mapGet sampleCorpus "5" = none ∧
    (store sampleEnv [] ["v[u]ln", "redhat"] sampleCorpus samplePatternFs).1.isDirAt
        ["v[u]ln", "redhat", "5"] = true := by
  decide

/-- The wipe also misses a source root that the glob cannot list: the glob
returns no match and no error, the phase returns no error, and the old file is
still there. -/
theorem wipe_misses_unlistable_root :
    (store sampleEnv [["vuln", "redhat"]] ["vuln", "redhat"] sampleCorpus sampleOldFs).2 = none ∧
    (store sampleEnv [["vuln", "redhat"]] ["vuln", "redhat"] sampleCorpus sampleOldFs).1.fileAt
        ["vuln", "redhat", "6", "CVE-0000-0000.json"] = some "old" := by
  decide

/-! ## The control flow of the commands -/

theorem convert_eq {Root : Type} (src : Source) (env : Env Root) (w : World) :
    convert src env w =
      if env.setLoggerFails then (w, some .setLogger)
      else
        match checkVulnDir env (vulnDirOf src env) w.fs with
        | (fs0, some e) => (⟨fs0, w.unlistable, w.ledgerCalls⟩, some e)
        | (fs0, none) =>
          match fetched src env with
          | none => (⟨fs0, w.unlistable, w.ledgerCalls⟩, some .fetchFiles)
          | some results =>
            match convertLoop src env results [] with
            | .error e => (⟨fs0, w.unlistable, w.ledgerCalls⟩, some e)
            | .ok corpus =>
              storeAndStamp env (vulnDirOf src env) (ledgerKey src) corpus fs0 w.unlistable
                w.ledgerCalls := by
  cases src <;> rfl

theorem Node.stat_notExist (p q : Path) :
    ∀ fs : Node, fs.stat p = .notExist → fs.get (p ++ q) = none := by
  induction p with
  | nil =>
    intro fs h
    cases fs <;> simp [Node.stat] at h
  | cons x p ih =>
    intro fs h
    cases fs with
    | file c => simp [Node.stat] at h
    | dir ks =>
      simp only [Node.stat] at h
      rw [List.cons_append, Node.get_dir_cons]
      cases hk : mapGet ks x with
      | none => rfl
      | some k =>
        simp only [hk] at h
        simpa using ih k h

theorem Node.stat_isDir (p : Path) :
    ∀ fs : Node, fs.stat p = .isDir → fs.isDirAt p = true := by
  induction p with
  | nil =>
    intro fs h
    cases fs with
    | file c => simp [Node.stat] at h
    | dir ks => simp [Node.isDirAt, Node.get]
  | cons x p ih =>
    intro fs h
    cases fs with
    | file c => simp [Node.stat] at h
    | dir ks =>
      simp only [Node.stat] at h
      unfold Node.isDirAt
      rw [Node.get_dir_cons]
      cases hk : mapGet ks x with
      | none => simp [hk] at h
      | some k =>
        simp only [hk] at h
        have := ih k h
        unfold Node.isDirAt at this
        simpa using this

theorem Node.mkdirAll_isDir (p : Path) :
    ∀ fs fs1 : Node, fs.mkdirAll p = some fs1 → fs1.isDirAt p = true := by
  induction p with
  | nil =>
    intro fs fs1 h
    cases fs with
    | file c => simp [Node.mkdirAll] at h
    | dir ks =>
      simp only [Node.mkdirAll, Option.some.injEq] at h
      subst h
      simp [Node.isDirAt, Node.get]
  | cons x p ih =>
    intro fs fs1 h
    cases fs with
    | file c => simp [Node.mkdirAll] at h
    | dir ks =>
      rw [Node.mkdirAll_dir_cons] at h
      cases hk : ((mapGet ks x).getD (.dir [])).mkdirAll p with
      | none => simp [hk] at h
      | some k =>
        simp only [hk, Option.some.injEq] at h
        subst h
        have := ih _ k hk
        unfold Node.isDirAt at this ⊢
        rw [Node.get_dir_cons, mapGet_mapSet]
        simpa using this

/-- What the directory check leaves: the file system as it was, or, when the
source root did not exist, the file system with the source root created. -/
theorem checkVulnDir_cases {Root : Type} (env : Env Root) (V : Path) (fs : Node) :
    ((checkVulnDir env V fs).1 = fs ∨
      (fs.stat V = .notExist ∧ fs.mkdirAll V = some (checkVulnDir env V fs).1)) ∧
    ((checkVulnDir env V fs).2 = none ∨ (checkVulnDir env V fs).2 = some .checkVulnDir ∨
      (checkVulnDir env V fs).2 = some .createVulnDir) ∧
    ((checkVulnDir env V fs).2 = none → (checkVulnDir env V fs).1.isDirAt V = true) := by
  unfold checkVulnDir
  by_cases hs : env.statFails = true
  · simp [hs]
  · simp only [hs, Bool.false_eq_true, if_false]
    cases hst : fs.stat V with
    | isDir => simpa using Node.stat_isDir V fs hst
    | isFile => simp
    | notDirOnPath => simp
    | notExist =>
      by_cases hm : env.mkdirFails V = true
      · simp [hm]
      · simp only [hm, Bool.false_eq_true, if_false]
        cases hmk : fs.mkdirAll V with
        | none => simp
        | some fs1 => simpa using Node.mkdirAll_isDir V fs fs1 hmk

/-- A command that returns no error went through every phase. -/
theorem convert_ok {Root : Type} (src : Source) (env : Env Root) (w w1 : World)
    (h : convert src env w = (w1, none)) :
    ∃ fs0 results corpus, env.setLoggerFails = false ∧
      checkVulnDir env (vulnDirOf src env) w.fs = (fs0, none) ∧
      fetched src env = some results ∧
      convertLoop src env results [] = .ok corpus ∧
      store env w.unlistable (vulnDirOf src env) corpus fs0 = (w1.fs, none) ∧
      env.setLastUpdatedDateFails = false ∧
      w1.unlistable = w.unlistable ∧
      w1.ledgerCalls = w.ledgerCalls ++ [ledgerKey src] := by
  rw [convert_eq] at h
  by_cases hl : env.setLoggerFails = true
  · simp [hl] at h
  · simp only [hl, Bool.false_eq_true, if_false] at h
    cases hc : checkVulnDir env (vulnDirOf src env) w.fs with
    | mk fs0 err =>
      cases err with
      | some e => simp [hc] at h
      | none =>
        simp only [hc] at h
        cases hf : fetched src env with
        | none => simp [hf] at h
        | some results =>
          simp only [hf] at h
          cases hcl : convertLoop src env results [] with
          | error e => simp [hcl] at h
          | ok corpus =>
            simp only [hcl, storeAndStamp] at h
            cases hs : store env w.unlistable (vulnDirOf src env) corpus fs0 with
            | mk fs1 err =>
              cases err with
              | some e => simp [hs] at h
              | none =>
                simp only [hs] at h
                by_cases hd : env.setLastUpdatedDateFails = true
                · simp [hd] at h
                · simp only [hd, Bool.false_eq_true, if_false, Prod.mk.injEq, and_true] at h
                  subst h
                  exact ⟨fs0, results, corpus, by simpa using hl, rfl, rfl, hcl, hs,
                    by simpa using hd, rfl, rfl⟩

/-! ## Failures and the ledger -/

/-- C8. In every run of either command the ledger function is invoked at most
once. When it is invoked, the directory check, the fetch and the conversion
loop had succeeded, the wipe-and-write phase had returned without error on the
resulting corpus (no glob, removal, directory creation, create, encode or close
failed), the file system of the result is the one that phase left, and the run
returns no error or the error of the ledger function itself. A run that returns
any other error leaves the ledger untouched, and a run that returns no error has
invoked the ledger function. -/
theorem ledger_written_only_on_success {Root : Type} (src : Source) (env : Env Root)
    (w : World) :
    ((convert src env w).1.ledgerCalls = w.ledgerCalls ∨
      (convert src env w).1.ledgerCalls = w.ledgerCalls ++ [ledgerKey src]) ∧
    ((convert src env w).1.ledgerCalls ≠ w.ledgerCalls →
      ∃ fs0 results corpus,
        checkVulnDir env (vulnDirOf src env) w.fs = (fs0, none) ∧
        fetched src env = some results ∧
        convertLoop src env results [] = .ok corpus ∧
        store env w.unlistable (vulnDirOf src env) corpus fs0 = ((convert src env w).1.fs, none) ∧
        StoreCallsSucceed env w.unlistable (vulnDirOf src env) corpus fs0 ∧
        ((convert src env w).2 = none ∨ (convert src env w).2 = some .setLastUpdatedDate)) ∧
    (∀ e, (convert src env w).2 = some e → e ≠ .setLastUpdatedDate →
      (convert src env w).1.ledgerCalls = w.ledgerCalls) ∧
    ((convert src env w).2 = none →
      (convert src env w).1.ledgerCalls = w.ledgerCalls ++ [ledgerKey src]) := by
  rw [convert_eq]
  by_cases hl : env.setLoggerFails = true
  · simp [hl]
  · simp only [hl, Bool.false_eq_true, if_false]
    cases hc : checkVulnDir env (vulnDirOf src env) w.fs with
    | mk fs0 err =>
      cases err with
      | some e => simp
      | none =>
        simp only
        cases hf : fetched src env with
        | none => simp
        | some results =>
          simp only
          cases hcl : convertLoop src env results [] with
          | error e => simp
          | ok corpus =>
            simp only [storeAndStamp]
            cases hs : store env w.unlistable (vulnDirOf src env) corpus fs0 with
            | mk fs1 err =>
              cases err with
              | some e => simp
              | none =>
                have hflags := store_flags env _ _ corpus fs0 fs1 hs
                by_cases hd : env.setLastUpdatedDateFails = true
                · simp only [hd, if_true]
                  refine ⟨Or.inr (by trivial), ?_, ?_, ?_⟩
                  · intro _
                    exact ⟨fs0, results, corpus, rfl, rfl, hcl, hs, hflags, Or.inr (by trivial)⟩
                  · intro e he hne
                    simp only [Option.some.injEq] at he
                    exact absurd he.symm hne
                  · intro h
                    cases h
                · simp only [hd, Bool.false_eq_true, if_false]
                  refine ⟨Or.inr (by trivial), ?_, ?_, ?_⟩
                  · intro _
                    exact ⟨fs0, results, corpus, rfl, rfl, hcl, hs, hflags, Or.inl (by trivial)⟩
                  · intro e he
                    cases he
                  · intro _
                    trivial

/-- C7. If the fetch returns an error, or one of the fetched documents, at any
position, does not parse, the run of either command returns an error, and that
error is one raised before the wipe. The ledger is untouched. The file system
is the one the run started with, or, when the source root did not exist, that
file system with the source root created by the directory check; in particular
every entry that existed at or below the source root is still there with the
same content. -/
theorem no_wipe_when_conversion_fails {Root : Type} (src : Source) (env : Env Root) (w : World)
    (h : fetched src env = none ∨
      ∃ results, fetched src env = some results ∧ ∃ r ∈ results, env.unmarshal r.body = none) :
    (∃ e, (convert src env w).2 = some e ∧
      (e = .setLogger ∨ e = .checkVulnDir ∨ e = .createVulnDir ∨ e = .fetchFiles ∨
        ∃ url, e = .unmarshalXml url)) ∧
    (convert src env w).1.ledgerCalls = w.ledgerCalls ∧
    ((convert src env w).1.fs = w.fs ∨
      (w.fs.stat (vulnDirOf src env) = .notExist ∧
        w.fs.mkdirAll (vulnDirOf src env) = some (convert src env w).1.fs)) ∧
    (∀ q, w.fs.existsAt (vulnDirOf src env ++ q) = true →
      (convert src env w).1.fs.get (vulnDirOf src env ++ q) = w.fs.get (vulnDirOf src env ++ q)) := by
  have main : (∃ e, (convert src env w).2 = some e ∧
      (e = .setLogger ∨ e = .checkVulnDir ∨ e = .createVulnDir ∨ e = .fetchFiles ∨
        ∃ url, e = .unmarshalXml url)) ∧
    (convert src env w).1.ledgerCalls = w.ledgerCalls ∧
    ((convert src env w).1.fs = w.fs ∨
      (w.fs.stat (vulnDirOf src env) = .notExist ∧
        w.fs.mkdirAll (vulnDirOf src env) = some (convert src env w).1.fs)) := by
    rw [convert_eq]
    by_cases hl : env.setLoggerFails = true
    · simp [hl]
    · simp only [hl, Bool.false_eq_true, if_false]
      obtain ⟨hfs, herr, _⟩ := checkVulnDir_cases env (vulnDirOf src env) w.fs
      cases hc : checkVulnDir env (vulnDirOf src env) w.fs with
      | mk fs0 err =>
        rw [hc] at hfs herr
        simp only at hfs herr
        cases err with
        | some e =>
          refine ⟨⟨e, rfl, ?_⟩, rfl, hfs⟩
          rcases herr with h1 | h1 | h1
          · cases h1
          · simp only [Option.some.injEq] at h1
            exact Or.inr (Or.inl h1)
          · simp only [Option.some.injEq] at h1
            exact Or.inr (Or.inr (Or.inl h1))
        | none =>
          simp only
          rcases h with hf | ⟨results, hf, hbad⟩
          · simp only [hf]
            exact ⟨⟨_, rfl, Or.inr (Or.inr (Or.inr (Or.inl (by trivial))))⟩, by trivial, hfs⟩
          · simp only [hf]
            obtain ⟨url, hu⟩ := convertLoop_error src env results [] hbad
            simp only [hu]
            exact ⟨⟨_, rfl, Or.inr (Or.inr (Or.inr (Or.inr ⟨url, rfl⟩)))⟩, by trivial, hfs⟩
  refine ⟨main.1, main.2.1, main.2.2, ?_⟩
  intro q hq
  rcases main.2.2 with h1 | ⟨h1, _⟩
  · rw [h1]
  · have := Node.stat_notExist (vulnDirOf src env) q w.fs h1
    simp [Node.existsAt, this] at hq

/-- The third sample document does not parse: the run stops with the error of
the XML parser and leaves the old file of the source root in place. -/
theorem no_wipe_when_conversion_fails_witness :
    (convert .redhat brokenEnv ⟨sampleOldFs, [], []⟩).1.fs.get
        (vulnDirOf .redhat brokenEnv ++ ["6", "CVE-0000-0000.json"]) =
      sampleOldFs.get (vulnDirOf .redhat brokenEnv ++ ["6", "CVE-0000-0000.json"]) :=
  (no_wipe_when_conversion_fails .redhat brokenEnv ⟨sampleOldFs, [], []⟩
    (Or.inr ⟨sampleDocs, rfl, ⟨"7", "url-c", "broken"⟩, by decide, rfl⟩)).2.2.2
    ["6", "CVE-0000-0000.json"] (by decide)

/-! ## Two runs on the same documents -/

/-- C10 (the claim fails as stated). One document whose record lists the CVE
identifiers `CVE-2020-1` and `./CVE-2020-1`: both map keys are written to the
file `7/CVE-2020-1.json`, and the key visited last wins. Two runs on the same
document that differ only in the order in which the CVE map is visited both
succeed and leave different contents in that file. -/
theorem second_run_differs_on_colliding_names :
    (convertRedHat collideEnv ⟨.dir [], [], []⟩).2 = none ∧
    (convertRedHat collideEnvRev (convertRedHat collideEnv ⟨.dir [], [], []⟩).1).2 = none ∧
    (convertRedHat collideEnv ⟨.dir [], [], []⟩).1.fs.fileAt
      ["vuln", "redhat", "7", "CVE-2020-1.json"] = some "RHSA-1 ./CVE-2020-1;" ∧
    (convertRedHat collideEnvRev (convertRedHat collideEnv ⟨.dir [], [], []⟩).1).1.fs.fileAt
      ["vuln", "redhat", "7", "CVE-2020-1.json"] = some "RHSA-1 CVE-2020-1;" := by
  refine ⟨by decide, by decide, by decide, by decide⟩

theorem lastYield_eq_mapGet (v : String) (l : List (String × List Definition))
    (hnd : (mapKeys l).Nodup) : lastYield v l = mapGet l v := by
  cases hg : mapGet l v with
  | none =>
    apply lastYield_none
    intro hmem
    obtain ⟨d, hd⟩ := (mem_mapKeys_iff l v).mp hmem
    rw [hg] at hd
    cases hd
  | some d => exact lastYield_of_mem v d l hnd (mem_of_mapGet l v d hg)

theorem lastYield_perm (v : String) (a b : List (String × List Definition)) (hp : a.Perm b)
    (hnd : (mapKeys b).Nodup) : lastYield v a = lastYield v b := by
  rw [lastYield_eq_mapGet v a (((hp.map Prod.fst).nodup_iff).mpr hnd),
    lastYield_eq_mapGet v b hnd, mapGet_perm a b hp hnd]

/-- Two environments with the same parser whose converters return the same maps
accumulate the same last record sequence for every version. -/
theorem lastYield_allYields_congr {Root : Type} (src : Source) (env1 env2 : Env Root)
    (hparse : env2.unmarshal = env1.unmarshal)
    (hyield : ∀ r root, (yieldOf src env2 r root).Perm (yieldOf src env1 r root))
    (v : String) (results : List FetchResult)
    (hkeys : ∀ r ∈ results, ∀ root, env1.unmarshal r.body = some root →
      (mapKeys (yieldOf src env1 r root)).Nodup) :
    lastYield v (allYields src env2 results) = lastYield v (allYields src env1 results) := by
  induction results with
  | nil => rfl
  | cons r rs ih =>
    simp only [allYields, hparse]
    cases hp : env1.unmarshal r.body with
    | none => rfl
    | some root =>
      simp only [lastYield_append]
      rw [ih (fun r1 hr1 => hkeys r1 (List.mem_cons_of_mem _ hr1)),
        lastYield_perm v _ _ (hyield r root) (hkeys r (List.mem_cons_self _ _) root hp)]

/-- The corpus of a run is a Go map of Go maps, and its keys are names that the
documents of the run contributed. -/
theorem corpus_wellformed {Root : Type} (src : Source) (env : Env Root)
    (results : List FetchResult) (corpus : VerDefsMap)
    (hloop : convertLoop src env results [] = .ok corpus)
    (hplain : ∀ r ∈ results, ∀ root, env.unmarshal r.body = some root →
      ∀ e ∈ yieldOf src env r root,
        PlainName e.1 ∧ ∀ d ∈ e.2, ∀ c ∈ d.advisory.cves, NoSlash c.cveID) :
    (mapKeys corpus).Nodup ∧ (∀ e ∈ corpus, (mapKeys e.2).Nodup) ∧
    ∀ e ∈ corpus, PlainName e.1 ∧ ∀ f ∈ e.2, NoSlash f.1 := by
  have hnd := corpus_nodup src env results corpus hloop
  have horigin : ∀ e ∈ corpus, ∃ r ∈ results, ∃ root, env.unmarshal r.body = some root ∧
      ∃ defs, (e.1, defs) ∈ yieldOf src env r root ∧ e.2 = rekeyAll defs := by
    intro e he
    obtain ⟨v, inner⟩ := e
    exact corpus_origin src env results corpus hloop v inner (mapGet_of_mem corpus hnd v inner he)
  refine ⟨hnd, ?_, ?_⟩
  · intro e he
    obtain ⟨_, _, _, _, defs, _, hin⟩ := horigin e he
    rw [hin]
    exact mapKeys_nodup_rekeyAll defs
  · intro e he
    obtain ⟨r, hr, root, hp, defs, hy, hin⟩ := horigin e he
    have hpl := hplain r hr root hp (e.1, defs) hy
    refine ⟨hpl.1, ?_⟩
    intro f hf
    obtain ⟨k, lst⟩ := f
    rw [hin] at hf
    have hg := mapGet_of_mem _ (mapKeys_nodup_rekeyAll defs) k lst hf
    rw [mapGet_rekeyAll] at hg
    by_cases hempty : referenceList k defs = []
    · simp [hempty] at hg
    · obtain ⟨x, hx⟩ := List.exists_mem_of_ne_nil _ hempty
      obtain ⟨d, hd, c, hc, hck, _⟩ := (mem_referenceList k x defs).mp hx
      have := hpl.2 d hd c hc
      rw [hck] at this
      exact this

theorem vulnDirOf_congr {Root : Type} (src : Source) (env1 env2 : Env Root)
    (h : env2.vulnDirBase = env1.vulnDirBase) : vulnDirOf src env2 = vulnDirOf src env1 := by
  cases src <;> simp [vulnDirOf, h]

/-- A path below the source root that lies at or below a match of the glob in
one file system lies at or below a match of the same glob in another, or does
not exist there. -/
theorem hit_or_absent (fsA fsB : Node) (unl : List Path) (V q : Path)
    (hexA : fsA.existsAt V = true) (hexB : fsB.existsAt V = true)
    (h : (fsB.globRev unl ("*" :: V.reverse)).any (fun d => initOf d (V ++ q)) = true) :
    (fsA.globRev unl ("*" :: V.reverse)).any (fun d => initOf d (V ++ q)) = true ∨
      fsA.get (V ++ q) = none := by
  cases q with
  | nil =>
    rw [List.append_nil, any_initOf_root _ V (globRev_root_length fsB unl V)] at h
    cases h
  | cons x rest =>
    obtain ⟨h1, _, h3⟩ := (glob_hit_iff fsB unl V x rest hexB).mp h
    by_cases hx : x ∈ fsA.kidNames V
    · exact Or.inl ((glob_hit_iff fsA unl V x rest hexA).mpr ⟨h1, hx, h3⟩)
    · exact Or.inr (Node.get_none_of_not_kid fsA V x rest hx)

/-- What a run that returns no error leaves, when the names are plain: the
directory check left the source root as a directory; every file of the corpus
holds the encoding of its list; every other file is gone when it lay at or below
a match of the glob and is as the directory check left it otherwise; the
directories are those that were not removed, the version directories and the
directories above them. -/
theorem run_effect {Root : Type} (src : Source) (env : Env Root) (w w1 : World)
    (results : List FetchResult) (hfetch : fetched src env = some results)
    (hplain : ∀ r ∈ results, ∀ root, env.unmarshal r.body = some root →
      ∀ e ∈ yieldOf src env r root,
        PlainName e.1 ∧ ∀ d ∈ e.2, ∀ c ∈ d.advisory.cves, NoSlash c.cveID)
    (hord : ∀ m, (env.orderVers m).Perm m) (hordc : ∀ m, (env.orderCves m).Perm m)
    (hrun : convert src env w = (w1, none)) :
    ∃ fs0, checkVulnDir env (vulnDirOf src env) w.fs = (fs0, none) ∧
      fs0.isDirAt (vulnDirOf src env) = true ∧ w1.unlistable = w.unlistable ∧
      (∀ ver inner cve defs,
        mapGet (rangeOsVers [] (allYields src env results)) ver = some inner →
        mapGet inner cve = some defs →
        w1.fs.fileAt (vulnDirOf src env ++ [ver, cve ++ ".json"]) = some (env.encode defs)) ∧
      (∀ p, (∀ ver inner cve,
          mapGet (rangeOsVers [] (allYields src env results)) ver = some inner →
          cve ∈ mapKeys inner → p ≠ vulnDirOf src env ++ [ver, cve ++ ".json"]) →
        w1.fs.fileAt p =
          if (fs0.globRev w.unlistable ("*" :: (vulnDirOf src env).reverse)).any
              (fun d => initOf d p) then none
          else fs0.fileAt p) ∧
      (∀ p, w1.fs.isDirAt p =
        ((if (fs0.globRev w.unlistable ("*" :: (vulnDirOf src env).reverse)).any
              (fun d => initOf d p) then false
          else fs0.isDirAt p) ||
          (mapKeys (rangeOsVers [] (allYields src env results))).any
            (fun ver => initOf p (vulnDirOf src env ++ [ver])))) := by
  obtain ⟨fs0, results1, corpus, _, hcheck, hf, hloop, hstore, _, hunl, _⟩ :=
    convert_ok src env w w1 hrun
  rw [hfetch] at hf
  cases hf
  have hdir : fs0.isDirAt (vulnDirOf src env) = true := by
    have := (checkVulnDir_cases env (vulnDirOf src env) w.fs).2.2
    rw [hcheck] at this
    exact this rfl
  obtain ⟨h1, h2, h3⟩ := corpus_wellformed src env results corpus hloop hplain
  have hE := store_effect env w.unlistable (vulnDirOf src env) corpus fs0 w1.fs h1 h2 h3
    (hord corpus) (fun e _ => hordc e.2) hstore
  have hc := (convertLoop_ok src env results [] corpus hloop).1
  rw [hc] at hE
  exact ⟨fs0, hcheck, hdir, hunl, hE.1, hE.2.1, hE.2.2⟩

/-- C10, amended. Let two runs of the same command take the same documents from
the fetcher, with the same parser, encoder and configured directory, and
converters that return the same maps; let every version key the documents yield
be a plain path-component name and every CVE identifier be free of separators;
let each run visit its maps in an order of its own. If the first run and then
the second both return no error, the second leaves below the source root the
same directories and the same files with the same contents as the first. -/
theorem second_run_same_files {Root : Type} (src : Source) (env1 env2 : Env Root)
    (w0 w1 w2 : World) (results : List FetchResult)
    (hbase : env2.vulnDirBase = env1.vulnDirBase)
    (hfetch1 : fetched src env1 = some results) (hfetch2 : fetched src env2 = some results)
    (hparse : env2.unmarshal = env1.unmarshal)
    (hyield : ∀ r root, (yieldOf src env2 r root).Perm (yieldOf src env1 r root))
    (henc : env2.encode = env1.encode)
    (hkeys : ∀ r ∈ results, ∀ root, env1.unmarshal r.body = some root →
      (mapKeys (yieldOf src env1 r root)).Nodup)
    (hplain : ∀ r ∈ results, ∀ root, env1.unmarshal r.body = some root →
      ∀ e ∈ yieldOf src env1 r root,
        PlainName e.1 ∧ ∀ d ∈ e.2, ∀ c ∈ d.advisory.cves, NoSlash c.cveID)
    (hord1 : ∀ m, (env1.orderVers m).Perm m) (hordc1 : ∀ m, (env1.orderCves m).Perm m)
    (hord2 : ∀ m, (env2.orderVers m).Perm m) (hordc2 : ∀ m, (env2.orderCves m).Perm m)
    (hrun1 : convert src env1 w0 = (w1, none)) (hrun2 : convert src env2 w1 = (w2, none))
    (q : Path) :
    w2.fs.fileAt (vulnDirOf src env1 ++ q) = w1.fs.fileAt (vulnDirOf src env1 ++ q) ∧
    w2.fs.isDirAt (vulnDirOf src env1 ++ q) = w1.fs.isDirAt (vulnDirOf src env1 ++ q) ∧
    w2.fs.existsAt (vulnDirOf src env1 ++ q) = w1.fs.existsAt (vulnDirOf src env1 ++ q) := by
  have hplain2 : ∀ r ∈ results, ∀ root, env2.unmarshal r.body = some root →
      ∀ e ∈ yieldOf src env2 r root,
        PlainName e.1 ∧ ∀ d ∈ e.2, ∀ c ∈ d.advisory.cves, NoSlash c.cveID := by
    intro r hr root hp e he
    rw [hparse] at hp
    exact hplain r hr root hp e ((hyield r root).mem_iff.mp he)
  obtain ⟨fs0, _, hd0, hu1, a1, a2, a3⟩ :=
    run_effect src env1 w0 w1 results hfetch1 hplain hord1 hordc1 hrun1
  obtain ⟨fs0b, hck2, _, _, b1, b2, b3⟩ :=
    run_effect src env2 w1 w2 results hfetch2 hplain2 hord2 hordc2 hrun2
  have hcorp : ∀ ver, mapGet (rangeOsVers [] (allYields src env2 results)) ver =
      mapGet (rangeOsVers [] (allYields src env1 results)) ver := by
    intro ver
    rw [mapGet_rangeOsVers, mapGet_rangeOsVers,
      lastYield_allYields_congr src env1 env2 hparse hyield ver results hkeys]
  have hvers : ∀ p : Path,
      (mapKeys (rangeOsVers [] (allYields src env2 results))).any
          (fun ver => initOf p (vulnDirOf src env1 ++ [ver])) =
        (mapKeys (rangeOsVers [] (allYields src env1 results))).any
          (fun ver => initOf p (vulnDirOf src env1 ++ [ver])) := by
    intro p
    rw [Bool.eq_iff_iff]
    simp only [List.any_eq_true, mem_mapKeys_iff, hcorp]
  rw [vulnDirOf_congr src env1 env2 hbase] at hck2 b1 b2 b3
  simp only [hcorp, henc] at b1 b2
  simp only [hvers, hu1] at b3
  rw [hu1] at b2
  have hw1dir : w1.fs.isDirAt (vulnDirOf src env1) = true := by
    rw [a3, any_initOf_root _ _ (globRev_root_length fs0 w0.unlistable _)]
    simp [hd0]
  have hfs : fs0b = w1.fs := by
    rcases (checkVulnDir_cases env2 (vulnDirOf src env1) w1.fs).1 with h | ⟨h, _⟩
    · rw [hck2] at h
      exact h
    · have hn := Node.stat_notExist (vulnDirOf src env1) [] w1.fs h
      rw [List.append_nil] at hn
      have hf := Node.isDirAt_of_get_none _ _ hn
      rw [hw1dir] at hf
      cases hf
  subst hfs
  have key := hit_or_absent fs0 w1.fs w0.unlistable (vulnDirOf src env1) q
    (Node.existsAt_of_isDirAt _ _ hd0) (Node.existsAt_of_isDirAt _ _ hw1dir)
  have hfile : w2.fs.fileAt (vulnDirOf src env1 ++ q) = w1.fs.fileAt (vulnDirOf src env1 ++ q) := by
    by_cases hc : ∃ ver inner cve,
        mapGet (rangeOsVers [] (allYields src env1 results)) ver = some inner ∧
        cve ∈ mapKeys inner ∧ q = [ver, cve ++ ".json"]
    · obtain ⟨ver, inner, cve, h1, h2, h3⟩ := hc
      obtain ⟨defs, hd⟩ := (mem_mapKeys_iff inner cve).mp h2
      subst h3
      rw [b1 ver inner cve defs h1 hd, a1 ver inner cve defs h1 hd]
    · have hne : ∀ ver inner cve,
          mapGet (rangeOsVers [] (allYields src env1 results)) ver = some inner →
          cve ∈ mapKeys inner →
          vulnDirOf src env1 ++ q ≠ vulnDirOf src env1 ++ [ver, cve ++ ".json"] := by
        intro ver inner cve h1 h2 heq
        exact hc ⟨ver, inner, cve, h1, h2, List.append_cancel_left heq⟩
      rw [b2 _ hne]
      by_cases h2 : (w1.fs.globRev w0.unlistable ("*" :: (vulnDirOf src env1).reverse)).any
          (fun d => initOf d (vulnDirOf src env1 ++ q)) = true
      · rw [h2, a2 _ hne]
        rcases key h2 with h1 | h1
        · simp [h1]
        · rw [Node.fileAt_of_get_none _ _ h1]
          simp
      · rw [Bool.not_eq_true] at h2
        simp [h2]
  have hdir : w2.fs.isDirAt (vulnDirOf src env1 ++ q) = w1.fs.isDirAt (vulnDirOf src env1 ++ q) := by
    rw [b3]
    have hw1 := a3 (vulnDirOf src env1 ++ q)
    by_cases h2 : (w1.fs.globRev w0.unlistable ("*" :: (vulnDirOf src env1).reverse)).any
        (fun d => initOf d (vulnDirOf src env1 ++ q)) = true
    · rw [h2, hw1]
      rcases key h2 with h1 | h1
      · simp [h1]
      · rw [Node.isDirAt_of_get_none _ _ h1]
        simp
    · rw [Bool.not_eq_true] at h2
      rw [h2]
      simp only [Bool.false_eq_true, if_false]
      rw [hw1, Bool.or_assoc, Bool.or_self]
  refine ⟨hfile, hdir, ?_⟩
  rw [Node.existsAt_eq, Node.existsAt_eq, hfile, hdir]

/-- Two runs on the first sample document, the second visiting both maps in the
opposite order: the file of CVE-2020-2 under version 7 is the same after both. -/
theorem second_run_same_files_witness :
    (convert .redhat sampleEnvRev (convert .redhat sampleEnv ⟨sampleOldFs, [], []⟩).1).1.fs.fileAt
        (vulnDirOf .redhat sampleEnv ++ ["7", "CVE-2020-2.json"]) =
      (convert .redhat sampleEnv ⟨sampleOldFs, [], []⟩).1.fs.fileAt
        (vulnDirOf .redhat sampleEnv ++ ["7", "CVE-2020-2.json"]) :=
  (second_run_same_files .redhat sampleEnv sampleEnvRev ⟨sampleOldFs, [], []⟩
    (convert .redhat sampleEnv ⟨sampleOldFs, [], []⟩).1
    (convert .redhat sampleEnvRev (convert .redhat sampleEnv ⟨sampleOldFs, [], []⟩).1).1
    [⟨"7", "url-a", "doc-a"⟩] rfl rfl rfl rfl (fun _ _ => List.Perm.refl _) rfl
    (by intro r _ root _; simp [yieldOf, mapKeys])
    (by
      intro r hr root hroot
      simp only [List.mem_singleton] at hr
      subst hr
      have hroot2 : root = "doc-a" := by
        simp only [sampleEnv] at hroot
        simpa using hroot.symm
      subst hroot2
      decide)
    (fun _ => List.Perm.refl _) (fun _ => List.Perm.refl _)
    (fun m => List.reverse_perm m) (fun m => List.reverse_perm m)
    rfl rfl ["7", "CVE-2020-2.json"]).1

end Goval
